import Mathlib

/-!
# A static file server with a health endpoint

Shallow embedding of `server.js` (an Express application that mounts
`express.static` on the `app` directory and then registers `GET /health`)
and of the application that `tests/health.test.js` builds for itself.

The two source files are glue over Node.js and Express.  The definitions
below follow the source line by line where the source has lines
(`PORT`, the order of `app.use` / `app.get`, the two health handlers) and
model the library calls the source makes by their behaviour at default
options:

* `path.join` / `path.normalize` (POSIX flavour);
* `decodeURIComponent`;
* `express.static` (packages `serve-static` and `send`): method filter,
  decoding, `..` guard, dotfiles ignored, `index.html` for directory-like
  paths, redirect for directories, conditional and range requests;
* Express routing: layers are tried in registration order, `app.get` routes
  match case-insensitively with an optional trailing slash and also serve
  `HEAD`, the final handler answers 404;
* `res.json` with its automatic HEAD and cache-freshness support;
* `process.uptime()` and `new Date().toISOString()`.

A request is handled in a `World`: a file system (a path holds a regular file
with its bytes, a directory, or nothing; reads do not fail and links are not
followed), the two clocks, and an `HttpLib`.  What the HTTP validators compute
from header values (entity tags, HTTP dates, byte ranges) and which of the two
dotfile rules of `send` is installed is left abstract in `HttpLib`: every
theorem holds for every such library.
-/

namespace Srv

/-! ## JavaScript values and the `PORT` constant -/

/-- The JavaScript values that occur in the two source files. -/
inductive JsValue
  | undefined
  | str (s : String)
  | num (q : ℚ)
  deriving DecidableEq

/-- JavaScript truthiness on these values: `undefined`, the empty string and
zero are falsy. -/
def truthy : JsValue → Bool
  | .undefined => false
  | .str s => s.data ≠ []
  | .num q => q ≠ 0

/-- The operator `a || b`: `a` when it is truthy, otherwise `b`. -/
def jsOr (a b : JsValue) : JsValue := if truthy a then a else b

/-- The value of `process.env.PORT`: environment variables are strings, an
unset variable reads as `undefined`. -/
def envPORT : Option String → JsValue
  | none => .undefined
  | some s => .str s

/-- `const PORT = process.env.PORT || 3000;` (server.js line 5).  The
argument is the PORT environment variable, `none` when unset. -/
def PORT (env : Option String) : JsValue := jsOr (envPORT env) (.num 3000)

/-- The first argument of `app.listen(PORT, ...)` (server.js line 19). -/
def listenArg (env : Option String) : JsValue := PORT env

/-- A string is a valid TCP port number when it is a non-empty decimal numeral
of value at most 65535.  This is the reading of "valid port" used to state
the port claim; the source has no such check. -/
def isValidPort (s : String) : Bool :=
  s.data ≠ [] && s.data.all Char.isDigit &&
    decide (s.data.foldl (fun n c => 10 * n + (c.toNat - 48)) 0 ≤ 65535)

/-! ## POSIX paths: `path.normalize` and `path.join` -/

/-- JavaScript `split` on separator characters: the pieces between
separators, empty pieces included. -/
def splitSep (isSep : Char → Bool) : List Char → List (List Char)
  | [] => [[]]
  | c :: cs =>
    if isSep c then [] :: splitSep isSep cs
    else match splitSep isSep cs with
      | [] => [[c]]
      | s :: ss => (c :: s) :: ss

/-- The POSIX path separator test. -/
def isSlash (c : Char) : Bool := c == '/'

/-- The segment `..`. -/
def dotdot : List Char := ['.', '.']

/-- One segment of `normalizeString`.  The stack holds the segments kept so
far, last one first.  Empty segments and `.` are dropped; `..` removes the last
kept segment unless there is none or it is itself `..`, in which case `..` is
kept when the path is relative (`allowAboveRoot`) and dropped otherwise; any
other segment is kept. -/
def normStep (allowAboveRoot : Bool) (stack : List (List Char)) (seg : List Char) :
    List (List Char) :=
  if seg = [] ∨ seg = ['.'] then stack
  else if seg = dotdot then
    match stack with
    | [] => if allowAboveRoot then [dotdot] else []
    | top :: rest =>
      if top = dotdot then (if allowAboveRoot then dotdot :: stack else stack)
      else rest
  else seg :: stack

/-- The kept segments of a path, last one first. -/
def normStack (allowAboveRoot : Bool) (path : List Char) : List (List Char) :=
  (splitSep isSlash path).foldl (normStep allowAboveRoot) []

/-- Segments joined by `/`. -/
def joinSegs : List (List Char) → List Char
  | [] => []
  | [s] => s
  | s :: t :: ss => s ++ '/' :: joinSegs (t :: ss)

/-- Node's `normalizeString`: the kept segments joined by `/`. -/
def normalizeString (path : List Char) (allowAboveRoot : Bool) : List Char :=
  joinSegs (normStack allowAboveRoot path).reverse

/-- Node's `path.posix.normalize`. -/
def normalize (path : List Char) : List Char :=
  if path = [] then ['.']
  else
    let isAbsolute := path.head? = some '/'
    let trailingSeparator := path.getLast? = some '/'
    let p := normalizeString path (!decide isAbsolute)
    if p = [] then
      if isAbsolute then ['/'] else if trailingSeparator then ['.', '/'] else ['.']
    else
      (if isAbsolute then '/' :: p else p) ++ (if trailingSeparator then ['/'] else [])

/-- Node's `path.posix.join`: the non-empty arguments joined by `/`, then
normalized; `.` when there is none. -/
def pathJoin (args : List (List Char)) : List Char :=
  match args.filter (fun a => a ≠ []) with
  | [] => ['.']
  | parts => normalize (joinSegs parts)

/-! ## `decodeURIComponent` -/

/-- Value of a hexadecimal digit. -/
def hexDigit (c : Char) : Option Nat :=
  if '0' ≤ c ∧ c ≤ '9' then some (c.toNat - 48)
  else if 'a' ≤ c ∧ c ≤ 'f' then some (c.toNat - 87)
  else if 'A' ≤ c ∧ c ≤ 'F' then some (c.toNat - 55)
  else none

/-- A character of the input, or an octet written as a `%XX` escape. -/
inductive Octet
  | lit (c : Char)
  | esc (b : Nat)
  deriving DecidableEq

/-- First pass of decoding: read the `%XX` escapes; `none` when a `%` is not
followed by two hexadecimal digits. -/
def unescape : List Char → Option (List Octet)
  | [] => some []
  | c :: rest =>
    if c = '%' then
      match rest with
      | h :: l :: rest2 =>
        match hexDigit h, hexDigit l, unescape rest2 with
        | some a, some b, some r => some (.esc (16 * a + b) :: r)
        | _, _, _ => none
      | _ => none
    else (unescape rest).map (fun r => .lit c :: r)

/-- A UTF-8 continuation octet `10xxxxxx`. -/
def isCont (b : Nat) : Bool := 0x80 ≤ b && b < 0xC0

/-- A UTF-8 sequence that is being read: the number of continuation octets
still to come, the bits read so far, and the least code point that this length
of sequence may encode. -/
structure Pending where
  need : Nat
  bits : Nat
  least : Nat

/-- Second pass of decoding: escaped octets must form well-formed UTF-8 (no
overlong forms, no surrogates, nothing above U+10FFFF).  The first argument is
the sequence being read, if any. -/
def utf8Decode : Option Pending → List Octet → Option (List Char)
  | none, [] => some []
  | some _, [] => none
  | none, .lit c :: rest => (utf8Decode none rest).map (fun r => c :: r)
  | some _, .lit _ :: _ => none
  | none, .esc b :: rest =>
    if b < 0x80 then (utf8Decode none rest).map (fun r => Char.ofNat b :: r)
    else if 0xC2 ≤ b ∧ b < 0xE0 then utf8Decode (some ⟨1, b % 32, 0x80⟩) rest
    else if 0xE0 ≤ b ∧ b < 0xF0 then utf8Decode (some ⟨2, b % 16, 0x800⟩) rest
    else if 0xF0 ≤ b ∧ b < 0xF5 then utf8Decode (some ⟨3, b % 8, 0x10000⟩) rest
    else none
  | some pd, .esc b :: rest =>
    if isCont b then
      let cp := pd.bits * 64 + b % 64
      if pd.need ≤ 1 then
        if pd.least ≤ cp ∧ cp < 0x110000 ∧ ¬ (0xD800 ≤ cp ∧ cp < 0xE000) then
          (utf8Decode none rest).map (fun r => Char.ofNat cp :: r)
        else none
      else utf8Decode (some ⟨pd.need - 1, cp, pd.least⟩) rest
    else none

/-- JavaScript `decodeURIComponent`; `none` where it throws `URIError`. -/
def decodeURIComponent (s : List Char) : Option (List Char) :=
  (unescape s).bind (utf8Decode none)

/-! ## Time: `process.uptime()` and `Date.prototype.toISOString` -/

/-- Milliseconds in a day. -/
def msPerDay : Int := 86400000

/-- The day number of a time value (ECMAScript `Day(t)`); division rounds
towards minus infinity. -/
def Day (t : Int) : Int := t / msPerDay

/-- Milliseconds since the start of the day (ECMAScript `TimeWithinDay(t)`). -/
def TimeWithinDay (t : Int) : Int := t % msPerDay

/-- A calendar date in the proleptic Gregorian calendar; `month` is 1..12. -/
structure Civil where
  year : Int
  month : Int
  day : Int
  deriving DecidableEq

/-- The calendar date of a day number (days since 1970-01-01).  Days are
counted from 1 March of year 0 and cut into eras of 400 years (146097 days),
centuries (36524 days, the last of an era one day longer), cycles of four
years (1461 days) and years (365 days, the last of a cycle one day longer);
the month follows from the day of the year that starts on 1 March. -/
def civilFromDays (z : Int) : Civil :=
  let z := z + 719468
  let era := z / 146097
  let doe := z % 146097
  let c := if doe / 36524 = 4 then 3 else doe / 36524
  let doc := doe - c * 36524
  let q := doc / 1461
  let doq := doc % 1461
  let yr := if doq / 365 = 4 then 3 else doq / 365
  let doy := doq - yr * 365
  let yoe := c * 100 + q * 4 + yr
  let mp := (5 * doy + 2) / 153
  let d := doy - (153 * mp + 2) / 5 + 1
  let m := if mp < 10 then mp + 3 else mp - 9
  { year := if m ≤ 2 then yoe + era * 400 + 1 else yoe + era * 400, month := m, day := d }

/-- The day number of a calendar date (ECMAScript `MakeDay`, with the month
counted from 1). -/
def daysFromCivil (y m d : Int) : Int :=
  let y := if m ≤ 2 then y - 1 else y
  let era := y / 400
  let yoe := y % 400
  let mp := if m > 2 then m - 3 else m + 9
  let doy := (153 * mp + 2) / 5 + d - 1
  let doe := yoe * 365 + yoe / 4 - yoe / 100 + doy
  era * 146097 + doe - 719468

/-- ECMAScript `MakeTime`. -/
def MakeTime (h m s ms : Int) : Int := h * 3600000 + m * 60000 + s * 1000 + ms

/-- ECMAScript `MakeDate`. -/
def MakeDate (day time : Int) : Int := day * msPerDay + time

/-- The largest magnitude of a time value (ECMAScript `TimeClip`). -/
def maxTime : Int := 8640000000000000

/-- The decimal digit character of `n % 10`. -/
def digitChar (n : Nat) : Char := Char.ofNat (48 + n % 10)

/-- The lowest `width` decimal digits of `n`, most significant first. -/
def pad : Nat → Nat → List Char
  | 0, _ => []
  | w + 1, n => pad w (n / 10) ++ [digitChar n]

/-- The year of an ISO string: four digits for years 0 to 9999, otherwise a
sign and six digits. -/
def yearString (y : Int) : List Char :=
  if 0 ≤ y ∧ y ≤ 9999 then pad 4 y.toNat
  else (if y < 0 then '-' else '+') :: pad 6 y.natAbs

/-- The part of an ISO date-time after the year: `-MM-DDTHH:mm:ss.sssZ`. -/
def dateTimeTail (month day hour minute second ms : Nat) : List Char :=
  '-' :: pad 2 month ++ '-' :: pad 2 day ++ 'T' :: pad 2 hour ++ ':' :: pad 2 minute ++
    ':' :: pad 2 second ++ '.' :: pad 3 ms ++ ['Z']

/-- The text of `Date.prototype.toISOString` for the time value `t`
(milliseconds since the epoch, UTC): `YYYY-MM-DDTHH:mm:ss.sssZ`. -/
def toISOString (t : Int) : List Char :=
  let c := civilFromDays (Day t)
  let ms := TimeWithinDay t
  yearString c.year ++ dateTimeTail c.month.toNat c.day.toNat (ms / 3600000).toNat
    (ms / 60000 % 60).toNat (ms / 1000 % 60).toNat (ms % 1000).toNat

/-- Value of a decimal digit. -/
def digitVal (c : Char) : Option Nat :=
  if '0' ≤ c ∧ c ≤ '9' then some (c.toNat - 48) else none

/-- The number written by a list of decimal digits, read onto `acc`. -/
def readDigits (acc : Nat) : List Char → Option Nat
  | [] => some acc
  | c :: cs =>
    match digitVal c with
    | some d => readDigits (10 * acc + d) cs
    | none => none

/-- The part of an ISO date-time after the year, `-MM-DDTHH:mm:ss.sssZ`.
Fields out of range make the string invalid: month 1..12, day 1..31, hour
0..23 (or 24:00:00.000), minute and second 0..59; so does a result outside the
range of time values. -/
def parseAfterYear (y : Int) : List Char → Option Int
  | [c1, m1, m2, c2, d1, d2, c3, h1, h2, c4, n1, n2, c5, s1, s2, c6, f1, f2, f3, c7] =>
    if c1 = '-' ∧ c2 = '-' ∧ c3 = 'T' ∧ c4 = ':' ∧ c5 = ':' ∧ c6 = '.' ∧ c7 = 'Z' then
      match readDigits 0 [m1, m2], readDigits 0 [d1, d2], readDigits 0 [h1, h2],
          readDigits 0 [n1, n2], readDigits 0 [s1, s2], readDigits 0 [f1, f2, f3] with
      | some mo, some d, some h, some mi, some s, some ms =>
        if 1 ≤ mo ∧ mo ≤ 12 ∧ 1 ≤ d ∧ d ≤ 31 ∧ mi ≤ 59 ∧ s ≤ 59 ∧
            (h ≤ 23 ∨ (h = 24 ∧ mi = 0 ∧ s = 0 ∧ ms = 0)) then
          let t := MakeDate (daysFromCivil y mo d) (MakeTime h mi s ms)
          if -maxTime ≤ t ∧ t ≤ maxTime then some t else none
        else none
      | _, _, _, _, _, _ => none
    else none
  | _ => none

/-- Parsing the ISO date-time format with the UTC designator `Z`, as
`Date.parse` reads the strings that `toISOString` writes: a four-digit year,
or a sign and six digits (`-000000` is not a year). -/
def parseISO : List Char → Option Int
  | [] => none
  | c :: rest =>
    if c = '+' ∨ c = '-' then
      match rest with
      | y1 :: y2 :: y3 :: y4 :: y5 :: y6 :: rest6 =>
        match readDigits 0 [y1, y2, y3, y4, y5, y6] with
        | some y =>
          if c = '-' then (if y = 0 then none else parseAfterYear (-(y : Int)) rest6)
          else parseAfterYear y rest6
        | none => none
      | _ => none
    else
      match rest with
      | y2 :: y3 :: y4 :: rest4 =>
        match readDigits 0 [c, y2, y3, y4] with
        | some y => parseAfterYear y rest4
        | none => none
      | _ => none

/-! ## Requests, responses and the environment of a request -/

/-- HTTP request methods. -/
inductive Method
  | GET | HEAD | POST | PUT | DELETE | PATCH | OPTIONS
  deriving DecidableEq

/-- An HTTP request as the application sees it: the method, the path name of
the URL as received (still percent-encoded), the query string and the header
fields (names in lower case, as Node presents them). -/
structure Request where
  method : Method
  path : List Char
  query : List Char
  headers : List (String × String)

/-- The value of a header field, `none` when the request has no such field. -/
def Request.header (req : Request) (name : String) : Option String :=
  (req.headers.find? (fun h => h.1 == name)).map (fun h => h.2)

/-- A header field is set when it is present with a non-empty value
(JavaScript truthiness of `req.headers[name]`). -/
def Request.hasHeader (req : Request) (name : String) : Bool :=
  match req.header name with
  | some v => v.data ≠ []
  | none => false

/-- A response body: nothing, the bytes of a file, a JSON object given by its
fields in order, or a page written by the framework (represented by its
message). -/
inductive Body
  | empty
  | bytes (content : List UInt8)
  | json (fields : List (String × JsValue))
  | page (message : String)
  deriving DecidableEq

/-- An HTTP response: status code and body. -/
structure Response where
  status : Nat
  body : Body
  deriving DecidableEq

/-- What the file system holds at a path: a regular file with its bytes, or a
directory. -/
inductive Node
  | file (content : List UInt8)
  | dir
  deriving DecidableEq

/-- The outcome of reading a `Range` header against a body length: not
satisfiable, one byte range `first..last`, or anything else (the whole body
is sent). -/
inductive RangeResult
  | unsatisfiable
  | single (first last : Nat)
  | whole
  deriving DecidableEq

/-- What depends on the installed packages and is not modelled further.
Three functions of the HTTP validators on header values: whether a conditional
request is fresh against a response body (package `fresh`, on the entity tag
and modification date of the body), whether the preconditions `If-Match` /
`If-Unmodified-Since` fail, and what a `Range` header (with `If-Range`) selects
out of a given length.  And the dotfile rule of `send` at its default option:
`legacyDotfiles` holds for `send` 0.x (Express 4), which ignores a dotfile only
in the last part of the path, and not for `send` 1.x (Express 5), which ignores
a dotfile in any part. -/
structure HttpLib where
  fresh : Request → Body → Bool
  preconditionFailure : Request → List UInt8 → Bool
  range : Request → Nat → RangeResult
  legacyDotfiles : Bool

/-- The environment in which a request is handled: the file system (absolute
normalized path to node), the validator library, the reading of the
monotonic clock at process start and at handling (nanoseconds), and the
wall clock at handling (milliseconds since the epoch). -/
structure World where
  fs : List Char → Option Node
  lib : HttpLib
  start : Nat
  hrtime : Nat
  now : Int

/-! ## `express.static` -/

/-- The test of `UP_PATH_REGEXP = /(?:^|[\\/])\.\.(?:[\\/]|$)/`: some piece
between slashes or backslashes is `..`. -/
def upPath (path : List Char) : Bool :=
  (splitSep (fun c => c == '/' || c == '\\') path).contains dotdot

/-- A path part longer than one character that starts with a dot. -/
def containsDotFile (parts : List (List Char)) : Bool :=
  parts.any (fun part => decide (1 < part.length) && part.head? == some '.')

/-- The dotfile rule at the default option: a path with a dotfile part is
ignored; under the legacy rule only when its last part starts with a dot. -/
def ignoresDotFile (lib : HttpLib) (parts : List (List Char)) : Bool :=
  containsDotFile parts &&
    (!lib.legacyDotfiles || (parts.getLast?.bind List.head?) == some '.')

/-- The request path ends with a slash. -/
def hasTrailingSlash (path : List Char) : Bool := path.getLast? == some '/'

/-- The file-system path that `send` derives from the request path: decode,
refuse NUL, normalize relative to the root, refuse a path that climbs out
(`..` left after normalization), ignore dotfiles, join with the root.  `none`
where `send` raises an error of class 4xx, which `serve-static` turns into a
fall-through. -/
def resolve (lib : HttpLib) (root rawPath : List Char) : Option (List Char) :=
  match decodeURIComponent rawPath with
  | none => none
  | some p =>
    if Char.ofNat 0 ∈ p then none
    else
      let p := if p = [] then [] else normalize ('.' :: '/' :: p)
      if upPath p then none
      else if ignoresDotFile lib (splitSep isSlash p) then none
      else some (normalize (pathJoin [root, p]))

/-- The path whose node decides the response: the index file for a
directory-like request path, the resolved path otherwise. -/
def target (lib : HttpLib) (root rawPath : List Char) : Option (List Char) :=
  (resolve lib root rawPath).map fun full =>
    if hasTrailingSlash rawPath then pathJoin [full, "index.html".toList] else full

/-- The request carries one of the four conditional header fields
(`isConditionalGET` of `send`). -/
def isConditionalGET (req : Request) : Bool :=
  req.hasHeader "if-match" || req.hasHeader "if-unmodified-since" ||
    req.hasHeader "if-none-match" || req.hasHeader "if-modified-since"

/-- The test of `BYTES_RANGE_REGEXP = /^ *bytes=/` on the `Range` header. -/
def isBytesRange (req : Request) : Bool :=
  match req.header "range" with
  | some v => "bytes=".toList.isPrefixOf (v.data.dropWhile (fun c => c == ' '))
  | none => false

/-- The response with a status and a body, without the body for `HEAD`. -/
def respond (req : Request) (status : Nat) (body : Body) : Response :=
  { status := status, body := if req.method = .HEAD then .empty else body }

/-- Package `fresh`: is the copy that the client holds still good?  Never for
a request without `If-None-Match` and `If-Modified-Since`; always for the
wildcard `If-None-Match: *` sent alone (no `If-Modified-Since`, no
`Cache-Control`); in the other cases entity tags and dates are compared, which
is left to the library. -/
def fresh (lib : HttpLib) (req : Request) (body : Body) : Bool :=
  if !req.hasHeader "if-modified-since" && !req.hasHeader "if-none-match" then false
  else if !req.hasHeader "cache-control" && !req.hasHeader "if-modified-since" &&
      req.header "if-none-match" == some "*" then true
  else lib.fresh req body

/-- The `send` step for a regular file: a failed precondition is an error 412,
a fresh conditional request gets 304 without body, an unsatisfiable range is an
error 416, a single range gets 206 and that part of the file, anything else
gets 200 and the whole file.  Errors raised once the file is found reach the
default error handler, which answers with the status of the error.  No body is
sent for `HEAD`, whatever the status. -/
def send (w : World) (req : Request) (content : List UInt8) : Response :=
  if isConditionalGET req ∧ w.lib.preconditionFailure req content then
    respond req 412 (.page "Precondition Failed")
  else if isConditionalGET req ∧ fresh w.lib req (.bytes content) then
    { status := 304, body := .empty }
  else if isBytesRange req then
    match w.lib.range req content.length with
    | .unsatisfiable => respond req 416 (.page "Range Not Satisfiable")
    | .single first last =>
      respond req 206 (.bytes ((content.drop first).take (last + 1 - first)))
    | .whole => respond req 200 (.bytes content)
  else respond req 200 (.bytes content)

/-- The middleware `express.static(root)` at default options.  `none` is a
call of `next()`: other methods than GET and HEAD, a path that does not
resolve, nothing at the target, or a directory where an index file is looked
for.  A directory at a path without trailing slash is answered with a
redirect to the path with the slash (its page is not sent for `HEAD`). -/
def serveStatic (w : World) (root : List Char) (req : Request) : Option Response :=
  if req.method ≠ .GET ∧ req.method ≠ .HEAD then none
  else
    match target w.lib root req.path with
    | none => none
    | some t =>
      match w.fs t with
      | some (.file content) => some (send w req content)
      | some .dir =>
        if hasTrailingSlash req.path then none
        else some (respond req 301 (.page "Redirecting"))
      | none => none

/-! ## `res.json` and the two health handlers -/

/-- The getter `req.fresh` for a response with the given status and body: only
for GET and HEAD and only for a 2xx or 304 status. -/
def reqFresh (w : World) (req : Request) (status : Nat) (body : Body) : Bool :=
  (req.method = .GET || req.method = .HEAD) &&
    ((decide (200 ≤ status) && decide (status < 300)) || status = 304) &&
    fresh w.lib req body

/-- The call `res.json(obj)` on a response whose status code is `status`: the
object is sent as the body; a fresh request gets 304 and no body; `HEAD` gets
no body. -/
def resJson (w : World) (req : Request) (status : Nat) (obj : List (String × JsValue)) :
    Response :=
  if reqFresh w req status (.json obj) then { status := 304, body := .empty }
  else respond req status (.json obj)

/-- The value of `process.uptime()`: seconds between the reading of the
monotonic clock at process start and the reading at the call, as an exact
rational (the runtime returns the nearest double; rounding to nearest keeps
order and sign). -/
def uptime (w : World) : ℚ := (((w.hrtime : Int) - (w.start : Int) : Int) : ℚ) / 1000000000

/-- The object literal of server.js lines 12 to 16. -/
def healthObject (w : World) : List (String × JsValue) :=
  [("status", .str "ok"),
   ("uptime", .num (uptime w)),
   ("timestamp", .str (String.mk (toISOString w.now)))]

/-- The handler of `app.get("/health", ...)` in server.js (lines 11 to 17):
`res.json` on a fresh response, whose status code is 200. -/
def healthHandler (w : World) (req : Request) : Response :=
  resJson w req 200 (healthObject w)

namespace HealthTest

/-- The handler of `app.get("/health", ...)` in tests/health.test.js (lines 8
to 10): `res.status(200).json({ status: "ok" })`. -/
def healthHandler (w : World) (req : Request) : Response :=
  resJson w req 200 [("status", .str "ok")]

end HealthTest

/-! ## The applications: ordered layers and dispatch -/

/-- The handlers that the two source files register. -/
inductive Handler
  | serverHealth
  | testHealth
  deriving DecidableEq

/-- A layer of an Express application: `app.use(express.static(root))` or
`app.get(path, handler)`. -/
inductive Layer
  | useStatic (root : List Char)
  | get (path : List Char) (handler : Handler)
  deriving DecidableEq

/-- Running a registered handler. -/
def Handler.run : Handler → World → Request → Response
  | .serverHealth => Srv.healthHandler
  | .testHealth => HealthTest.healthHandler

/-- Route matching for a route path without pattern characters, at the default
settings (not case sensitive, not strict): the request path is the route path,
or the route path followed by one slash, letter case ignored. -/
def matchRoute (routePath reqPath : List Char) : Bool :=
  let p := reqPath.map Char.toLower
  let r := routePath.map Char.toLower
  p == r || p == r ++ ['/']

/-- The final handler: nothing answered the request.  The page is not sent for
`HEAD`. -/
def notFound (req : Request) : Response := respond req 404 (.page "Not Found")

/-- The router: the layers are tried in the order of registration.  A static
layer answers or passes on.  An `app.get` route whose path matches answers GET
and HEAD; for other methods it passes on, and for OPTIONS its methods are
collected.  When the layers are exhausted, an OPTIONS request that matched the
path of a route gets 200 with the allowed methods, anything else gets 404. -/
def dispatch (w : World) (req : Request) : List Layer → List Method → Response
  | [], allow =>
    if req.method = .OPTIONS ∧ allow ≠ [] then { status := 200, body := .page "Allow: GET, HEAD" }
    else notFound req
  | .useStatic root :: rest, allow =>
    match serveStatic w root req with
    | some r => r
    | none => dispatch w req rest allow
  | .get path handler :: rest, allow =>
    if matchRoute path req.path then
      if req.method = .GET ∨ req.method = .HEAD then handler.run w req
      else dispatch w req rest (if req.method = .OPTIONS then allow ++ [.GET, .HEAD] else allow)
    else dispatch w req rest allow

/-- The layers of the application of server.js, in the order of lines 8 and
11: first `app.use(express.static(path.join(__dirname, "app")))`, then
`app.get("/health", ...)`. -/
def layers (dirname : List Char) : List Layer :=
  [.useStatic (pathJoin [dirname, "app".toList]), .get "/health".toList .serverHealth]

/-- The static root of server.js: `path.join(__dirname, "app")`. -/
def staticRoot (dirname : List Char) : List Char := pathJoin [dirname, "app".toList]

/-- The application of server.js, for the directory `dirname` of server.js. -/
def app (dirname : List Char) (w : World) (req : Request) : Response :=
  dispatch w req (layers dirname) []

namespace HealthTest

/-- The layers of the application of tests/health.test.js, in the order of
lines 6 and 8; `dirname` is the directory of the test file. -/
def layers (dirname : List Char) : List Layer :=
  [.useStatic (pathJoin [dirname, "../app".toList]), .get "/health".toList .testHealth]

/-- The application that the test file builds. -/
def app (dirname : List Char) (w : World) (req : Request) : Response :=
  dispatch w req (layers dirname) []

end HealthTest

/-! ## Observations on responses -/

/-- The value of a field of a JSON body. -/
def Response.field (r : Response) (name : String) : Option JsValue :=
  match r.body with
  | .json fields => (fields.find? (fun f => f.1 == name)).map (fun f => f.2)
  | _ => none

/-! ## Locations, for stating where a path leads -/

/-- The non-empty pieces of a path between slashes: the names on the way to
the location it denotes. -/
def segs (path : List Char) : List (List Char) :=
  (splitSep isSlash path).filter (fun s => s ≠ [])

/-- The location `q` lies in the directory `root` or below: the names of
`root` begin the names of `q`. -/
def inside (root q : List Char) : Prop := segs root <+: segs q

instance instDecidableInside (root q : List Char) : Decidable (inside root q) :=
  inferInstanceAs (Decidable (segs root <+: segs q))

/-- A segment that `normalizeString` keeps as a name. -/
def Proper (seg : List Char) : Prop := seg ≠ [] ∧ seg ≠ ['.'] ∧ seg ≠ dotdot


/-- An absolute normalized path of a directory: a slash, then names (no empty
name, no `.`, no `..`, no slash inside a name) joined by slashes. -/
def AbsNorm (q : List Char) (names : List (List Char)) : Prop :=
  names ≠ [] ∧ (∀ n ∈ names, Proper n ∧ ∀ c ∈ n, isSlash c = false) ∧ q = '/' :: joinSegs names


/-- An absolute normalized path, with or without a trailing slash: the names
`N` behind a slash, joined by slashes. -/
def NormForm (q : List Char) (N : List (List Char)) (b : Bool) : Prop :=
  N ≠ [] ∧ (∀ n ∈ N, Proper n ∧ ∀ c ∈ n, isSlash c = false) ∧
    q = '/' :: joinSegs N ++ (if b then ['/'] else [])

/-! ## Worlds and requests used in examples -/

/-- A library that never reports freshness, never fails a precondition and reads
no range, with the dotfile rule of `send` 1.x. -/
def plainLib : HttpLib :=
  { fresh := fun _ _ => false, preconditionFailure := fun _ _ => false, range := fun _ _ => .whole,
    legacyDotfiles := false }

/-- The plain library with the dotfile rule of `send` 0.x. -/
def legacyLib : HttpLib := { plainLib with legacyDotfiles := true }

/-- A validator library that reads `Range: bytes=0-0` as the first byte of a
non-empty body. -/
def rangeLib : HttpLib :=
  { plainLib with
    range := fun req len =>
      if req.header "range" = some "bytes=0-0" ∧ 0 < len then .single 0 0 else .whole }

/-- A validator library under which the entity tag that the request carries is
that of the body `{"status":"ok"}` and of no other body. -/
def etagLib : HttpLib :=
  { plainLib with fresh := fun _ body => body == .json [("status", .str "ok")] }

/-- A plain GET request for a path: no query, no header fields. -/
def getRequest (path : String) : Request :=
  { method := .GET, path := path.toList, query := [], headers := [] }

/-- A GET request for a path with one header field. -/
def getWith (path name value : String) : Request :=
  { method := .GET, path := path.toList, query := [], headers := [(name, value)] }

/-- A world with the given file system and library; the process started at
5 s on the monotonic clock, the request is handled at 7.5 s, the wall clock
reads 2023-11-14T22:13:20.000Z. -/
def worldOf (fs : List Char → Option Node) (lib : HttpLib) : World :=
  { fs := fs, lib := lib, start := 5000000000, hrtime := 7500000000, now := 1700000000000 }

/-- The empty file system. -/
def fsEmpty : List Char → Option Node := fun _ => none

/-- A file system whose static root `/srv/app` holds a directory `health`. -/
def fsHealthDir : List Char → Option Node := fun p =>
  if p = "/srv/app/health".toList then some .dir else none

/-- A file system whose static root `/srv/app` holds a regular file `health`. -/
def fsHealthFile : List Char → Option Node := fun p =>
  if p = "/srv/app/health".toList then some (.file [104, 105]) else none

/-- A file system with `/srv/app/index.html`, the dotfile `/srv/app/.env` and,
outside the static root, `/srv/secret.txt`. -/
def fsSite : List Char → Option Node := fun p =>
  if p = "/srv/app/index.html".toList then some (.file [60, 104, 49, 62])
  else if p = "/srv/app/.env".toList then some (.file [75, 61, 49])
  else if p = "/srv/secret.txt".toList then some (.file [115])
  else if p = "/srv/app".toList then some .dir
  else none

/-- The response with the named fields removed from a JSON body. -/
def Response.without (r : Response) (names : List String) : Response :=
  match r.body with
  | .json fields => { r with body := .json (fields.filter (fun f => !names.contains f.1)) }
  | _ => r

/-- The `uptime` number of a response, when its body is a JSON object with a
numeric `uptime` field. -/
def Response.uptime (r : Response) : Option ℚ :=
  match r.field "uptime" with
  | some (.num u) => some u
  | _ => none

/-! ## Lemmas on paths -/

theorem splitSep_ne_nil (f : Char → Bool) (s : List Char) : splitSep f s ≠ [] := by
  cases s with
  | nil => simp [splitSep]
  | cons c cs =>
    unfold splitSep
    split
    · simp
    · split <;> simp

theorem splitSep_cons_sep (f : Char → Bool) (x : Char) (xs : List Char) (hx : f x = true) :
    splitSep f (x :: xs) = [] :: splitSep f xs := by
  simp [splitSep, hx]

theorem splitSep_cons_other (f : Char → Bool) (x : Char) (xs s : List Char)
    (ss : List (List Char)) (hx : ¬ f x = true) (h : splitSep f xs = s :: ss) :
    splitSep f (x :: xs) = (x :: s) :: ss := by
  simp [splitSep, hx, h]

/-- Splitting at a separator: the pieces of `a ++ sep :: b` are the pieces of `a`
followed by the pieces of `b`. -/
theorem splitSep_append (f : Char → Bool) (a b : List Char) (c : Char) (hc : f c = true) :
    splitSep f (a ++ c :: b) = splitSep f a ++ splitSep f b := by
  induction a with
  | nil => simp [splitSep, hc]
  | cons x xs ih =>
    by_cases hx : f x = true
    · rw [List.cons_append, splitSep_cons_sep f x _ hx, splitSep_cons_sep f x _ hx, ih]; rfl
    · cases h : splitSep f xs with
      | nil => exact absurd h (splitSep_ne_nil f xs)
      | cons s ss =>
        rw [List.cons_append, splitSep_cons_other f x _ s (ss ++ splitSep f b) hx (by rw [ih, h]; rfl),
          splitSep_cons_other f x _ s ss hx h]
        rfl

theorem normalize_append_slash (a b : List Char) (ha : a ≠ []) (hb : b ≠ []) :
    normalize (a ++ '/' :: b) =
      (let isAbsolute := a.head? = some '/'
       let trailingSeparator := b.getLast? = some '/'
       let p := joinSegs ((splitSep isSlash b).foldl (normStep (!decide isAbsolute))
          (normStack (!decide isAbsolute) a)).reverse
       if p = [] then
         if isAbsolute then ['/'] else if trailingSeparator then ['.', '/'] else ['.']
       else
         (if isAbsolute then '/' :: p else p) ++ (if trailingSeparator then ['/'] else [])) := by
  have h1 : (a ++ '/' :: b).head? = a.head? := by
    cases a with
    | nil => exact absurd rfl ha
    | cons x xs => rfl
  have h2 : (a ++ '/' :: b).getLast? = b.getLast? := by
    rw [List.getLast?_append]
    cases hbl : b.getLast? with
    | none => simp at hbl; exact absurd hbl hb
    | some x => simp [List.getLast?_cons_cons, hbl, List.getLast?_cons]
  unfold normalize normalizeString normStack
  simp only [h1, h2]
  rw [splitSep_append isSlash a b '/' (by decide), List.foldl_append]
  simp

/-- The test file and server.js name the same static root: from the `tests`
directory below `dirname`, `../app` is the `app` directory of `dirname`. -/
theorem testRoot_eq (dirname : List Char) (h : dirname ≠ []) :
    pathJoin [dirname ++ "/tests".toList, "../app".toList] = pathJoin [dirname, "app".toList] := by
  have e1 : dirname ++ "/tests".toList ≠ [] := by simp
  have hl : pathJoin [dirname ++ "/tests".toList, "../app".toList]
      = normalize (dirname ++ '/' :: "tests/../app".toList) := by
    simp [pathJoin, List.filter, e1, h, joinSegs]
  have hr : pathJoin [dirname, "app".toList] = normalize (dirname ++ '/' :: "app".toList) := by
    simp [pathJoin, List.filter, h, joinSegs]
  rw [hl, hr, normalize_append_slash _ _ h (by decide), normalize_append_slash _ _ h (by decide)]
  have s1 : splitSep isSlash "tests/../app".toList = ["tests".toList, dotdot, "app".toList] := by decide
  have s2 : splitSep isSlash "app".toList = ["app".toList] := by decide
  have g1 : "tests/../app".toList.getLast? = some 'p' := by decide
  have g2 : "app".toList.getLast? = some 'p' := by decide
  simp only [s1, s2, g1, g2, List.foldl_cons, List.foldl_nil]
  have n1 : ∀ st, normStep (!decide (dirname.head? = some '/')) st "tests".toList = "tests".toList :: st := by
    intro st; simp [normStep, dotdot]
  have n2 : ∀ st, normStep (!decide (dirname.head? = some '/')) ("tests".toList :: st) dotdot = st := by
    intro st; simp [normStep, dotdot]
  rw [n1, n2]

theorem mem_splitSep_noSep (f : Char → Bool) (s : List Char) :
    ∀ seg ∈ splitSep f s, ∀ c ∈ seg, f c = false := by
  induction s with
  | nil => intro seg h; simp [splitSep] at h; subst h; simp
  | cons x xs ih =>
    intro seg h
    by_cases hx : f x = true
    · rw [splitSep_cons_sep f x xs hx] at h
      rcases List.mem_cons.mp h with h | h
      · subst h; simp
      · exact ih seg h
    · cases hs : splitSep f xs with
      | nil => exact absurd hs (splitSep_ne_nil f xs)
      | cons s ss =>
        rw [splitSep_cons_other f x xs s ss hx hs] at h
        rcases List.mem_cons.mp h with h | h
        · subst h
          intro c hc
          rcases List.mem_cons.mp hc with hc | hc
          · subst hc; simpa using hx
          · exact ih s (by rw [hs]; exact List.mem_cons_self _ _) c hc
        · exact ih seg (by rw [hs]; exact List.mem_cons_of_mem _ h)

theorem mem_splitSep_sub (f : Char → Bool) (s : List Char) :
    ∀ seg ∈ splitSep f s, ∀ c ∈ seg, c ∈ s := by
  induction s with
  | nil => intro seg h; simp [splitSep] at h; subst h; simp
  | cons x xs ih =>
    intro seg h
    by_cases hx : f x = true
    · rw [splitSep_cons_sep f x xs hx] at h
      rcases List.mem_cons.mp h with h | h
      · subst h; simp
      · intro c hc; exact List.mem_cons_of_mem _ (ih seg h c hc)
    · cases hs : splitSep f xs with
      | nil => exact absurd hs (splitSep_ne_nil f xs)
      | cons s ss =>
        rw [splitSep_cons_other f x xs s ss hx hs] at h
        rcases List.mem_cons.mp h with h | h
        · subst h
          intro c hc
          rcases List.mem_cons.mp hc with hc | hc
          · subst hc; exact List.mem_cons_self _ _
          · exact List.mem_cons_of_mem _ (ih s (by rw [hs]; exact List.mem_cons_self _ _) c hc)
        · intro c hc
          exact List.mem_cons_of_mem _ (ih seg (by rw [hs]; exact List.mem_cons_of_mem _ h) c hc)

theorem splitSep_of_noSep (f : Char → Bool) (s : List Char) (h : ∀ c ∈ s, f c = false) :
    splitSep f s = [s] := by
  induction s with
  | nil => rfl
  | cons x xs ih =>
    have hx : ¬ f x = true := by simp [h x (List.mem_cons_self _ _)]
    exact splitSep_cons_other f x xs xs [] hx (ih (fun c hc => h c (List.mem_cons_of_mem _ hc)))

theorem splitSep_joinSegs (f : Char → Bool) (hf : f '/' = true) (names : List (List Char))
    (hne : names ≠ []) (h : ∀ n ∈ names, ∀ c ∈ n, f c = false) :
    splitSep f (joinSegs names) = names := by
  induction names with
  | nil => exact absurd rfl hne
  | cons n rest ih =>
    cases rest with
    | nil => exact splitSep_of_noSep f n (h n (List.mem_cons_self _ _))
    | cons t ss =>
      show splitSep f (n ++ '/' :: joinSegs (t :: ss)) = _
      rw [splitSep_append f _ _ '/' hf, splitSep_of_noSep f n (h n (List.mem_cons_self _ _)),
        ih (by simp) (fun m hm => h m (List.mem_cons_of_mem _ hm))]
      rfl

theorem normStep_proper (a : Bool) (st : List (List Char)) (seg : List Char) (h : Proper seg) :
    normStep a st seg = seg :: st := by
  simp [normStep, h.1, h.2.1, h.2.2]

theorem foldl_normStep_proper (a : Bool) (names : List (List Char)) :
    ∀ st, (∀ n ∈ names, Proper n) → names.foldl (normStep a) st = names.reverse ++ st := by
  induction names with
  | nil => intro st _; rfl
  | cons n rest ih =>
    intro st h
    rw [List.foldl_cons, normStep_proper a st n (h n (List.mem_cons_self _ _)),
      ih _ (fun m hm => h m (List.mem_cons_of_mem _ hm))]
    simp

theorem normStep_mem (a : Bool) (st : List (List Char)) (seg x : List Char)
    (h : x ∈ normStep a st seg) : x ∈ st ∨ x = seg := by
  unfold normStep at h
  split at h
  · exact Or.inl h
  · split at h
    · rename_i hdd
      cases st with
      | nil =>
        simp only at h
        split at h
        · simp at h; right; rw [h, hdd]
        · simp at h
      | cons top rest =>
        simp only at h
        split at h
        · split at h
          · rcases List.mem_cons.mp h with h | h
            · right; rw [h, hdd]
            · exact Or.inl h
          · exact Or.inl h
        · exact Or.inl (List.mem_cons_of_mem _ h)
    · rcases List.mem_cons.mp h with h | h
      · exact Or.inr h
      · exact Or.inl h

theorem foldl_normStep_mem (a : Bool) (segs : List (List Char)) :
    ∀ st x, x ∈ segs.foldl (normStep a) st → x ∈ st ∨ x ∈ segs := by
  induction segs with
  | nil => intro st x h; exact Or.inl h
  | cons s rest ih =>
    intro st x h
    rcases ih _ x h with h | h
    · rcases normStep_mem a st s x h with h | h
      · exact Or.inl h
      · exact Or.inr (by rw [h]; exact List.mem_cons_self _ _)
    · exact Or.inr (List.mem_cons_of_mem _ h)

/-- Every kept segment is a non-empty segment other than `.`. -/
theorem normStep_kept (a : Bool) (st : List (List Char)) (seg : List Char)
    (h : ∀ x ∈ st, x ≠ [] ∧ x ≠ ['.']) : ∀ x ∈ normStep a st seg, x ≠ [] ∧ x ≠ ['.'] := by
  intro x hx
  rcases normStep_mem a st seg x hx with hx1 | hx1
  · exact h x hx1
  · subst hx1
    by_cases hs : x = [] ∨ x = ['.']
    · simp only [normStep, hs, if_true] at hx
      exact h x hx
    · exact ⟨fun e => hs (Or.inl e), fun e => hs (Or.inr e)⟩

theorem foldl_normStep_kept (a : Bool) (segs : List (List Char)) :
    ∀ st, (∀ x ∈ st, x ≠ [] ∧ x ≠ ['.']) →
      ∀ x ∈ segs.foldl (normStep a) st, x ≠ [] ∧ x ≠ ['.'] := by
  induction segs with
  | nil => intro st h; exact h
  | cons s rest ih => intro st h; exact ih _ (normStep_kept a st s h)

/-- An absolute path keeps no `..`. -/
theorem normStep_false_no_dotdot (st : List (List Char)) (seg : List Char)
    (h : dotdot ∉ st) : dotdot ∉ normStep false st seg := by
  unfold normStep
  split
  · exact h
  · split
    · cases st with
      | nil => simp
      | cons top rest =>
        simp only
        split
        · simpa using h
        · intro hm; exact h (List.mem_cons_of_mem _ hm)
    · rename_i h1 h2
      intro hm
      rcases List.mem_cons.mp hm with hm | hm
      · exact h2 hm.symm
      · exact h hm

theorem foldl_normStep_false_no_dotdot (segs : List (List Char)) :
    ∀ st, dotdot ∉ st → dotdot ∉ segs.foldl (normStep false) st := by
  induction segs with
  | nil => intro st h; exact h
  | cons s rest ih => intro st h; exact ih _ (normStep_false_no_dotdot st s h)

/-- A relative path never loses a `..` that it has kept. -/
theorem normStep_true_dotdot (st : List (List Char)) (seg : List Char)
    (h : dotdot ∈ st) : dotdot ∈ normStep true st seg := by
  unfold normStep
  split
  · exact h
  · split
    · cases st with
      | nil => simp at h
      | cons top rest =>
        simp only
        split
        · simp
        · rename_i htop
          rcases List.mem_cons.mp h with h | h
          · exact absurd h.symm htop
          · exact h
    · exact List.mem_cons_of_mem _ h

theorem foldl_normStep_true_dotdot (segs : List (List Char)) :
    ∀ st, dotdot ∈ st → dotdot ∈ segs.foldl (normStep true) st := by
  induction segs with
  | nil => intro st h; exact h
  | cons s rest ih => intro st h; exact ih _ (normStep_true_dotdot st s h)

/-- When a relative path normalizes without keeping any `..`, normalizing it
behind a base (with either setting) is normalizing it alone and keeping the
base: no step reaches into the base. -/
theorem foldl_normStep_base (a : Bool) (segs : List (List Char)) :
    ∀ st base, dotdot ∉ st → dotdot ∉ segs.foldl (normStep true) st →
      segs.foldl (normStep a) (st ++ base) = segs.foldl (normStep true) st ++ base := by
  induction segs with
  | nil => intro st base _ _; rfl
  | cons s rest ih =>
    intro st base hst hfin
    rw [List.foldl_cons, List.foldl_cons]
    rw [List.foldl_cons] at hfin
    have hstep : dotdot ∉ normStep true st s := fun hm =>
      hfin (foldl_normStep_true_dotdot rest _ hm)
    have key : normStep a (st ++ base) s = normStep true st s ++ base := by
      by_cases h1 : s = [] ∨ s = ['.']
      · simp [normStep, h1]
      · by_cases h2 : s = dotdot
        · have h1' : ¬ (dotdot = [] ∨ dotdot = ['.']) := by decide
          subst h2
          cases st with
          | nil =>
            have hm : dotdot ∈ normStep true [] dotdot := by simp [normStep, h1']
            exact absurd hm hstep
          | cons top tl =>
            have htop : top ≠ dotdot := fun e => hst (by rw [← e]; exact List.mem_cons_self _ _)
            simp [normStep, h1', htop]
        · simp [normStep, h1, h2]
    rw [key]
    exact ih _ base hstep hfin

theorem normalize_abs_append (a b : List Char) (ha : a.head? = some '/') (hb : b ≠ []) :
    normalize (a ++ '/' :: b) =
      if joinSegs ((splitSep isSlash b).foldl (normStep false) (normStack false a)).reverse = []
      then ['/']
      else '/' :: joinSegs ((splitSep isSlash b).foldl (normStep false) (normStack false a)).reverse
        ++ (if b.getLast? = some '/' then ['/'] else []) := by
  have hne : a ≠ [] := by intro h; rw [h] at ha; simp at ha
  rw [normalize_append_slash a b hne hb]
  simp [ha]

theorem normalize_rel_append (b : List Char) (hb : b ≠ []) :
    normalize ('.' :: '/' :: b) =
      if joinSegs ((splitSep isSlash b).foldl (normStep true) []).reverse = []
      then (if b.getLast? = some '/' then ['.', '/'] else ['.'])
      else joinSegs ((splitSep isSlash b).foldl (normStep true) []).reverse
        ++ (if b.getLast? = some '/' then ['/'] else []) := by
  have h := normalize_append_slash ['.'] b (by simp) hb
  have hs : normStack true ['.'] = [] := by decide
  simp only [List.singleton_append] at h
  rw [h]
  simp [hs]

theorem joinSegs_eq_nil (names : List (List Char)) (h : joinSegs names = []) :
    ∀ n ∈ names, n = [] := by
  induction names with
  | nil => simp
  | cons n rest ih =>
    cases rest with
    | nil => intro m hm; simp at hm; rw [hm]; exact h
    | cons t ss =>
      exfalso
      have : joinSegs (n :: t :: ss) = n ++ '/' :: joinSegs (t :: ss) := rfl
      rw [this] at h
      simp at h

theorem mem_splitSep_joinSegs (f : Char → Bool) (hf : f '/' = true) (x : List Char)
    (hx : ∀ c ∈ x, f c = false) (names : List (List Char)) (hm : x ∈ names) :
    x ∈ splitSep f (joinSegs names) := by
  induction names with
  | nil => simp at hm
  | cons n rest ih =>
    cases rest with
    | nil =>
      simp at hm; subst hm
      show x ∈ splitSep f x
      rw [splitSep_of_noSep f x hx]; simp
    | cons t ss =>
      show x ∈ splitSep f (n ++ '/' :: joinSegs (t :: ss))
      rw [splitSep_append f _ _ '/' hf]
      rcases List.mem_cons.mp hm with h | h
      · subst h
        rw [splitSep_of_noSep f x hx]; simp
      · exact List.mem_append_right _ (ih h)

/-- A path that keeps a `..` after normalization relative to the root is
recognised by the guard of `send`. -/
theorem upPath_of_dotdot (p : List Char) (hp : p ≠ [])
    (h : dotdot ∈ (splitSep isSlash p).foldl (normStep true) []) :
    upPath (normalize ('.' :: '/' :: p)) = true := by
  have hg : (fun c => c == '/' || c == '\\') '/' = true := by decide
  have hdd : ∀ c ∈ dotdot, (fun c => c == '/' || c == '\\') c = false := by decide
  have hrev : dotdot ∈ ((splitSep isSlash p).foldl (normStep true) []).reverse :=
    List.mem_reverse.mpr h
  have hne : joinSegs ((splitSep isSlash p).foldl (normStep true) []).reverse ≠ [] := by
    intro e
    have := joinSegs_eq_nil _ e dotdot hrev
    exact absurd this (by decide)
  have hmem := mem_splitSep_joinSegs _ hg dotdot hdd _ hrev
  rw [normalize_rel_append p hp, if_neg hne]
  unfold upPath
  rw [List.contains_iff_exists_mem_beq]
  refine ⟨dotdot, ?_, by simp⟩
  split
  · rw [splitSep_append _ _ [] '/' hg]
    exact List.mem_append_left _ hmem
  · simpa using hmem

theorem joinSegs_ne_nil (names : List (List Char)) (hne : names ≠ [])
    (h : ∀ n ∈ names, n ≠ []) : joinSegs names ≠ [] := by
  intro e
  cases names with
  | nil => exact hne rfl
  | cons n rest => exact h n (List.mem_cons_self _ _) (joinSegs_eq_nil _ e n (List.mem_cons_self _ _))

theorem normStack_mem_noSlash (a : Bool) (p : List Char) :
    ∀ x ∈ (splitSep isSlash p).foldl (normStep a) [], ∀ c ∈ x, isSlash c = false := by
  intro x hx
  rcases foldl_normStep_mem a _ [] x hx with h | h
  · simp at h
  · exact mem_splitSep_noSep isSlash p x h

theorem staticRoot_absNorm (dirname : List Char) (h : dirname.head? = some '/') :
    ∃ names, AbsNorm (staticRoot dirname) names := by
  have hne : dirname ≠ [] := by intro e; rw [e] at h; simp at h
  have hr : staticRoot dirname = normalize (dirname ++ '/' :: "app".toList) := by
    simp [staticRoot, pathJoin, List.filter, hne, joinSegs]
  have s2 : splitSep isSlash "app".toList = ["app".toList] := by decide
  have g2 : "app".toList.getLast? = some 'p' := by decide
  have happ : Proper "app".toList := by unfold Proper; decide
  have hstack : (splitSep isSlash "app".toList).foldl (normStep false) (normStack false dirname)
      = "app".toList :: normStack false dirname := by
    rw [s2, List.foldl_cons, List.foldl_nil, normStep_proper false _ _ happ]
  refine ⟨("app".toList :: normStack false dirname).reverse, ?_, ?_, ?_⟩
  · simp
  · intro n hn
    rw [List.mem_reverse] at hn
    rcases List.mem_cons.mp hn with hn | hn
    · subst hn; exact ⟨happ, by decide⟩
    · have hk := foldl_normStep_kept false (splitSep isSlash dirname) [] (by simp) n hn
      have hd : dotdot ∉ normStack false dirname :=
        foldl_normStep_false_no_dotdot _ [] (by simp)
      exact ⟨⟨hk.1, hk.2, fun e => hd (e ▸ hn)⟩, normStack_mem_noSlash false dirname n hn⟩
  · rw [hr, normalize_abs_append dirname _ h (by decide), hstack]
    have hj : joinSegs ("app".toList :: normStack false dirname).reverse ≠ [] := by
      intro e
      have := joinSegs_eq_nil _ e "app".toList (by simp)
      exact absurd this (by decide)
    rw [if_neg hj, g2]
    simp

theorem splitSep_absNorm (names : List (List Char)) (hne : names ≠ [])
    (h : ∀ n ∈ names, ∀ c ∈ n, isSlash c = false) :
    splitSep isSlash ('/' :: joinSegs names) = [] :: names := by
  rw [splitSep_cons_sep isSlash '/' _ (by decide), splitSep_joinSegs isSlash (by decide) names hne h]

theorem normStack_absNorm (q : List Char) (names : List (List Char)) (h : AbsNorm q names) :
    normStack false q = names.reverse := by
  obtain ⟨hne, hall, hq⟩ := h
  unfold normStack
  rw [hq, splitSep_absNorm names hne (fun n hn => (hall n hn).2), List.foldl_cons]
  have : normStep false [] [] = [] := by decide
  rw [this, foldl_normStep_proper false names [] (fun n hn => (hall n hn).1)]
  simp

theorem segs_absNorm (names : List (List Char)) (hne : names ≠ [])
    (h : ∀ n ∈ names, n ≠ [] ∧ ∀ c ∈ n, isSlash c = false) (trail : Bool) :
    segs ('/' :: joinSegs names ++ (if trail then ['/'] else [])) = names := by
  have hf : List.filter (fun s => decide (s ≠ [])) names = names :=
    List.filter_eq_self.mpr (fun n hn => by simpa using (h n hn).1)
  unfold segs
  cases trail with
  | false =>
    simp only [Bool.false_eq_true, if_false, List.append_nil]
    rw [splitSep_absNorm names hne (fun n hn => (h n hn).2)]
    simp only [List.filter_cons, hf]
    simp
  | true =>
    simp only [if_true]
    have : '/' :: joinSegs names ++ ['/'] = ('/' :: joinSegs names) ++ '/' :: [] := by simp
    rw [this, splitSep_append isSlash _ _ '/' (by decide),
      splitSep_absNorm names hne (fun n hn => (h n hn).2)]
    simp only [splitSep, List.filter_append, List.filter_cons, hf]
    simp

/-- A path that keeps no `..` when normalized on its own stays inside the
root it is joined to. -/
theorem inside_join (root p : List Char) (names : List (List Char)) (hr : AbsNorm root names)
    (hp : p ≠ []) (hS : dotdot ∉ (splitSep isSlash p).foldl (normStep true) []) :
    inside root (pathJoin [root, p]) := by
  have hstack := normStack_absNorm root names hr
  obtain ⟨hne, hall, hq⟩ := hr
  have hrne : root ≠ [] := by rw [hq]; simp
  have habs : root.head? = some '/' := by rw [hq]; rfl
  have hj : pathJoin [root, p] = normalize (root ++ '/' :: p) := by
    simp [pathJoin, List.filter, hrne, hp, joinSegs]
  have hbase := foldl_normStep_base false (splitSep isSlash p) [] names.reverse (by simp) hS
  simp only [List.nil_append] at hbase
  have hnames : ∀ n ∈ names ++ ((splitSep isSlash p).foldl (normStep true) []).reverse,
      n ≠ [] ∧ ∀ c ∈ n, isSlash c = false := by
    intro n hn
    rcases List.mem_append.mp hn with hn | hn
    · exact ⟨(hall n hn).1.1, (hall n hn).2⟩
    · rw [List.mem_reverse] at hn
      exact ⟨(foldl_normStep_kept true _ [] (by simp) n hn).1, normStack_mem_noSlash true p n hn⟩
  have hne2 : names ++ ((splitSep isSlash p).foldl (normStep true) []).reverse ≠ [] := by
    simp [hne]
  have hjn := joinSegs_ne_nil _ hne2 (fun n hn => (hnames n hn).1)
  unfold inside
  rw [hj, normalize_abs_append root p habs hp, hstack, hbase, List.reverse_append,
    List.reverse_reverse, if_neg hjn]
  have e1 := segs_absNorm _ hne2 hnames (decide (p.getLast? = some '/'))
  have e2 := segs_absNorm names hne (fun n hn => ⟨(hall n hn).1.1, (hall n hn).2⟩) false
  simp only [Bool.false_eq_true, if_false, List.append_nil] at e2
  simp only [decide_eq_true_eq] at e1
  rw [e1, hq, e2]
  exact List.prefix_append _ _

theorem unescape_plain (s : List Char) (h : '%' ∉ s) :
    unescape s = some (s.map Octet.lit) := by
  induction s with
  | nil => rfl
  | cons c cs ih =>
    have hc : c ≠ '%' := fun e => h (by rw [e]; exact List.mem_cons_self _ _)
    have hcs : '%' ∉ cs := fun hm => h (List.mem_cons_of_mem _ hm)
    unfold unescape
    rw [if_neg hc, ih hcs]; rfl

theorem utf8Decode_lit (s : List Char) : utf8Decode none (s.map Octet.lit) = some s := by
  induction s with
  | nil => rfl
  | cons c cs ih => rw [List.map_cons, utf8Decode, ih]; rfl

/-- A path without `%` decodes to itself. -/
theorem decodeURIComponent_plain (s : List Char) (h : '%' ∉ s) :
    decodeURIComponent s = some s := by
  simp [decodeURIComponent, unescape_plain s h, utf8Decode_lit]

/-- A request path that the `/health` route matches has no `%` and no `.`. -/
theorem matchRoute_health_chars (path : List Char)
    (h : matchRoute "/health".toList path = true) : '%' ∉ path ∧ '.' ∉ path := by
  have hl : path.map Char.toLower = "/health".toList ∨ path.map Char.toLower = "/health/".toList := by
    unfold matchRoute at h
    have e : "/health".toList.map Char.toLower = "/health".toList := by decide
    simp only [e, Bool.or_eq_true, beq_iff_eq] at h
    exact h
  have key : ∀ c ∈ path, c.toLower ∈ "/health/".toList := by
    intro c hc
    have hm : c.toLower ∈ path.map Char.toLower := List.mem_map_of_mem _ hc
    rcases hl with e | e
    · rw [e] at hm
      have hsub : ∀ x ∈ "/health".toList, x ∈ "/health/".toList := by decide
      exact hsub _ hm
    · rw [e] at hm; exact hm
  constructor
  · intro hm
    have := key _ hm
    revert this; decide
  · intro hm
    have := key _ hm
    revert this; decide

theorem normalize_absNorm (q : List Char) (names : List (List Char)) (h : AbsNorm q names) :
    segs (normalize q) = names := by
  have hstack := normStack_absNorm q names h
  obtain ⟨hne, hall, hq⟩ := h
  have hqne : q ≠ [] := by rw [hq]; simp
  have habs : q.head? = some '/' := by rw [hq]; rfl
  have hjn := joinSegs_ne_nil names hne (fun n hn => (hall n hn).1.1)
  unfold normalize normalizeString
  simp only [hqne, if_false, habs, decide_True, Bool.not_true, hstack, List.reverse_reverse,
    hjn, if_true]
  have := segs_absNorm names hne (fun n hn => ⟨(hall n hn).1.1, (hall n hn).2⟩)
    (decide (q.getLast? = some '/'))
  simpa using this

theorem segs_of_absNorm (q : List Char) (names : List (List Char)) (h : AbsNorm q names) :
    segs q = names := by
  obtain ⟨hne, hall, hq⟩ := h
  have := segs_absNorm names hne (fun n hn => ⟨(hall n hn).1.1, (hall n hn).2⟩) false
  simpa [hq] using this

/-- A decoded path that leaves the root is not resolved. -/
theorem resolve_escape (lib : HttpLib) (root raw p : List Char) (names : List (List Char))
    (hr : AbsNorm root names) (hd : decodeURIComponent raw = some p)
    (hesc : ¬ inside root (pathJoin [root, p])) :
    resolve lib root raw = none ∧ dotdot ∈ splitSep isSlash p := by
  have hrne : root ≠ [] := by rw [hr.2.2]; simp
  have hp : p ≠ [] := by
    intro e
    apply hesc
    have hj : pathJoin [root, p] = normalize root := by
      simp [pathJoin, List.filter, hrne, e, joinSegs]
    unfold inside
    rw [hj, normalize_absNorm root names hr, segs_of_absNorm root names hr]
  have hS : dotdot ∈ (splitSep isSlash p).foldl (normStep true) [] := by
    by_contra hS
    exact hesc (inside_join root p names hr hp hS)
  have hup := upPath_of_dotdot p hp hS
  constructor
  · unfold resolve
    rw [hd]
    simp only [hp, if_false, hup, if_true]
    split <;> rfl
  · rcases foldl_normStep_mem true _ [] dotdot hS with h | h
    · simp at h
    · exact h

theorem joinSegs_snoc (names : List (List Char)) (hne : names ≠ []) (x : List Char) :
    joinSegs (names ++ [x]) = joinSegs names ++ '/' :: x := by
  induction names with
  | nil => exact absurd rfl hne
  | cons n rest ih =>
    cases rest with
    | nil => rfl
    | cons t ss =>
      show n ++ '/' :: joinSegs ((t :: ss) ++ [x]) = (n ++ '/' :: joinSegs (t :: ss)) ++ '/' :: x
      rw [ih (by simp)]
      simp

/-- Joining a name to an absolute normalized root appends it after a slash. -/
theorem join_name (root name : List Char) (names : List (List Char)) (hr : AbsNorm root names)
    (hn : Proper name) (hs : ∀ c ∈ name, isSlash c = false) :
    normalize (pathJoin [root, name]) = root ++ '/' :: name := by
  have hstack := normStack_absNorm root names hr
  obtain ⟨hne, hall, hq⟩ := hr
  have hrne : root ≠ [] := by rw [hq]; simp
  have habs : root.head? = some '/' := by rw [hq]; rfl
  have hlast : name.getLast? ≠ some '/' := by
    intro e
    have hm : '/' ∈ name := List.mem_of_getLast?_eq_some e
    have := hs _ hm
    revert this; decide
  have hj : pathJoin [root, name] = normalize (root ++ '/' :: name) := by
    simp [pathJoin, List.filter, hrne, hn.1, joinSegs]
  have hsplit : splitSep isSlash name = [name] := splitSep_of_noSep isSlash name hs
  have hjn : joinSegs (names ++ [name]) ≠ [] :=
    joinSegs_ne_nil _ (by simp) (fun n hm => by
      rcases List.mem_append.mp hm with hm | hm
      · exact (hall n hm).1.1
      · simp at hm; subst hm; exact hn.1)
  have h1 : normalize (root ++ '/' :: name) = root ++ '/' :: name := by
    rw [normalize_abs_append root name habs hn.1, hstack, hsplit, List.foldl_cons, List.foldl_nil,
      normStep_proper false _ _ hn]
    simp only [List.reverse_cons, List.reverse_reverse, hjn, if_false, hlast, List.append_nil]
    rw [joinSegs_snoc names hne, hq]; simp
  rw [hj, h1]
  exact h1

/-! ## The application as a composition -/

theorem app_dispatch (dirname : List Char) (w : World) (req : Request) :
    app dirname w req =
      match serveStatic w (staticRoot dirname) req with
      | some r => r
      | none =>
        if matchRoute "/health".toList req.path then
          if req.method = .GET ∨ req.method = .HEAD then healthHandler w req
          else if req.method = .OPTIONS then { status := 200, body := .page "Allow: GET, HEAD" }
          else notFound req
        else notFound req := by
  unfold app layers staticRoot
  simp only [dispatch]
  cases serveStatic w (pathJoin [dirname, "app".toList]) req with
  | some r => rfl
  | none =>
    simp only [Handler.run]
    split
    · split
      · rfl
      · split
        · rename_i ho; simp [ho]
        · rename_i ho; simp [ho]
    · simp

theorem testApp_dispatch (dirname : List Char) (w : World) (req : Request) :
    HealthTest.app dirname w req =
      match serveStatic w (pathJoin [dirname, "../app".toList]) req with
      | some r => r
      | none =>
        if matchRoute "/health".toList req.path then
          if req.method = .GET ∨ req.method = .HEAD then HealthTest.healthHandler w req
          else if req.method = .OPTIONS then { status := 200, body := .page "Allow: GET, HEAD" }
          else notFound req
        else notFound req := by
  unfold HealthTest.app HealthTest.layers
  simp only [dispatch]
  cases serveStatic w (pathJoin [dirname, "../app".toList]) req with
  | some r => rfl
  | none =>
    simp only [Handler.run]
    split
    · split
      · rfl
      · split
        · rename_i ho; simp [ho]
        · rename_i ho; simp [ho]
    · simp

theorem fresh_unconditional (lib : HttpLib) (req : Request) (body : Body)
    (h1 : req.hasHeader "if-none-match" = false) (h2 : req.hasHeader "if-modified-since" = false) :
    fresh lib req body = false := by
  simp [fresh, h1, h2]

theorem resJson_stale (w : World) (req : Request) (status : Nat)
    (obj : List (String × JsValue)) (h : fresh w.lib req (.json obj) = false) :
    resJson w req status obj = respond req status (.json obj) := by
  simp [resJson, reqFresh, h]

theorem resJson_fresh (w : World) (req : Request) (obj : List (String × JsValue))
    (hm : req.method = .GET ∨ req.method = .HEAD) (h : fresh w.lib req (.json obj) = true) :
    resJson w req 200 obj = { status := 304, body := .empty } := by
  rcases hm with hm | hm <;> simp [resJson, reqFresh, h, hm]

theorem target_health (lib : HttpLib) (root : List Char) (names : List (List Char))
    (hr : AbsNorm root names) :
    target lib root "/health".toList = some (root ++ "/health".toList) := by
  have hd : decodeURIComponent "/health".toList = some "/health".toList := by decide
  have hn : normalize ('.' :: '/' :: "/health".toList) = "health".toList := by decide
  have hp : Proper "health".toList := by unfold Proper; decide
  have hj := join_name root "health".toList names hr hp (by decide)
  have e1 : "/health".toList ≠ [] := by decide
  have e2 : (Char.ofNat 0 ∈ "/health".toList) = False := by simp
  have e3 : upPath "health".toList = false := by decide
  have e4 : ignoresDotFile lib (splitSep isSlash "health".toList) = false := by
    have hc : containsDotFile (splitSep isSlash "health".toList) = false := by decide
    unfold ignoresDotFile
    rw [hc]; rfl
  have e5 : hasTrailingSlash "/health".toList = false := by decide
  unfold target resolve
  simp only [hd, e1, e2, if_false, hn, e3, e4, hj, Option.map_some', e5, Bool.false_eq_true]
  rfl

/-- With nothing named `health` in the static root, a GET or HEAD request to
`/health` is answered by the health handler. -/
theorem app_health (dirname : List Char) (w : World) (req : Request)
    (habs : dirname.head? = some '/') (hm : req.method = .GET ∨ req.method = .HEAD)
    (hp : req.path = "/health".toList)
    (hfs : w.fs (staticRoot dirname ++ "/health".toList) = none) :
    app dirname w req = healthHandler w req := by
  obtain ⟨names, hr⟩ := staticRoot_absNorm dirname habs
  have hs : serveStatic w (staticRoot dirname) req = none := by
    unfold serveStatic
    rw [hp, target_health _ _ names hr]
    split
    · rfl
    · simp only [hfs]
  have hmatch : matchRoute "/health".toList req.path = true := by rw [hp]; decide
  rw [app_dispatch, hs]
  simp only [hmatch, if_true, hm]

/-! ## Lemmas on normal forms and on what is looked up -/

theorem getLast?_cons_ne (x : Char) (l : List Char) (h : l ≠ []) :
    (x :: l).getLast? = l.getLast? := by
  cases l with
  | nil => exact absurd rfl h
  | cons y ys => exact List.getLast?_cons_cons

theorem getLast?_joinSegs (N : List (List Char)) (hne : N ≠ [])
    (h : ∀ n ∈ N, n ≠ [] ∧ ∀ c ∈ n, isSlash c = false) :
    (joinSegs N).getLast? ≠ some '/' := by
  induction N with
  | nil => exact absurd rfl hne
  | cons n rest ih =>
    cases rest with
    | nil =>
      intro e
      have hm : '/' ∈ n := List.mem_of_getLast?_eq_some e
      have := (h n (List.mem_cons_self _ _)).2 _ hm
      revert this; decide
    | cons t ss =>
      have hrec := ih (by simp) (fun m hm => h m (List.mem_cons_of_mem _ hm))
      have hj : joinSegs (t :: ss) ≠ [] :=
        joinSegs_ne_nil _ (by simp) (fun m hm => (h m (List.mem_cons_of_mem _ hm)).1)
      show (n ++ '/' :: joinSegs (t :: ss)).getLast? ≠ some '/'
      rw [List.getLast?_append, getLast?_cons_ne _ _ hj]
      cases hg : (joinSegs (t :: ss)).getLast? with
      | none => exact absurd (List.getLast?_eq_none_iff.mp hg) hj
      | some c =>
        intro e
        simp at e
        exact hrec (by rw [hg, e])

theorem NormForm.of_absNorm (q : List Char) (N : List (List Char)) (h : AbsNorm q N) :
    NormForm q N false := by
  obtain ⟨hne, hall, hq⟩ := h
  exact ⟨hne, hall, by simp [hq]⟩

theorem normStack_form (q : List Char) (N : List (List Char)) (b : Bool) (h : NormForm q N b) :
    normStack false q = N.reverse := by
  obtain ⟨hne, hall, hq⟩ := h
  cases b with
  | false =>
    exact normStack_absNorm q N ⟨hne, hall, by simpa using hq⟩
  | true =>
    have e : q = ('/' :: joinSegs N) ++ '/' :: [] := by simpa using hq
    have hs := normStack_absNorm ('/' :: joinSegs N) N ⟨hne, hall, rfl⟩
    unfold normStack at hs ⊢
    rw [e, splitSep_append isSlash _ _ '/' (by decide), List.foldl_append, hs]
    rfl

theorem head_form (q : List Char) (N : List (List Char)) (b : Bool) (h : NormForm q N b) :
    q.head? = some '/' ∧ q ≠ [] := by
  rw [h.2.2]; simp

theorem getLast_form (q : List Char) (N : List (List Char)) (b : Bool) (h : NormForm q N b) :
    (q.getLast? = some '/') ↔ b = true := by
  obtain ⟨hne, hall, hq⟩ := h
  have hj := joinSegs_ne_nil N hne (fun n hn => (hall n hn).1.1)
  have hl := getLast?_joinSegs N hne (fun n hn => ⟨(hall n hn).1.1, (hall n hn).2⟩)
  cases b with
  | false =>
    simp only [Bool.false_eq_true, if_false, List.append_nil] at hq
    rw [hq, getLast?_cons_ne _ _ hj]
    simp [hl]
  | true =>
    simp only [if_true] at hq
    rw [hq]
    have : '/' :: joinSegs N ++ ['/'] = ('/' :: joinSegs N) ++ ['/'] := rfl
    rw [this, List.getLast?_append]
    simp

/-- A path in normal form is a fixed point of `normalize`. -/
theorem normalize_form (q : List Char) (N : List (List Char)) (b : Bool) (h : NormForm q N b) :
    normalize q = q := by
  have hstack := normStack_form q N b h
  have hl := getLast_form q N b h
  obtain ⟨hhead, hqne⟩ := head_form q N b h
  obtain ⟨hne, hall, hq⟩ := h
  have hj := joinSegs_ne_nil N hne (fun n hn => (hall n hn).1.1)
  unfold normalize normalizeString
  simp only [hqne, if_false, hhead, decide_True, Bool.not_true, hstack, List.reverse_reverse, hj,
    if_true, hl]
  rw [hq]

theorem segs_form (q : List Char) (N : List (List Char)) (b : Bool) (h : NormForm q N b) :
    segs q = N := by
  obtain ⟨hne, hall, hq⟩ := h
  rw [hq]
  exact segs_absNorm N hne (fun n hn => ⟨(hall n hn).1.1, (hall n hn).2⟩) b

/-- Joining a relative path whose normalization adds the names `Y` (last one
first) to a path in normal form gives a path in normal form with the names
appended. -/
theorem join_form (q r : List Char) (N Y : List (List Char)) (b : Bool) (h : NormForm q N b)
    (hr : r ≠ [])
    (hY : (splitSep isSlash r).foldl (normStep false) N.reverse = Y ++ N.reverse)
    (hYp : ∀ n ∈ Y, Proper n ∧ ∀ c ∈ n, isSlash c = false) :
    NormForm (pathJoin [q, r]) (N ++ Y.reverse) (decide (r.getLast? = some '/')) := by
  have hstack := normStack_form q N b h
  obtain ⟨hhead, hqne⟩ := head_form q N b h
  obtain ⟨hne, hall, hq⟩ := h
  have hall2 : ∀ n ∈ N ++ Y.reverse, Proper n ∧ ∀ c ∈ n, isSlash c = false := by
    intro n hn
    rcases List.mem_append.mp hn with hn | hn
    · exact hall n hn
    · exact hYp n (List.mem_reverse.mp hn)
  have hne2 : N ++ Y.reverse ≠ [] := by simp [hne]
  have hj := joinSegs_ne_nil _ hne2 (fun n hn => (hall2 n hn).1.1)
  refine ⟨hne2, hall2, ?_⟩
  have hpj : pathJoin [q, r] = normalize (q ++ '/' :: r) := by
    simp [pathJoin, List.filter, hqne, hr, joinSegs]
  rw [hpj, normalize_abs_append q r hhead hr, hstack, hY, List.reverse_append,
    List.reverse_reverse, if_neg hj]
  by_cases hl : r.getLast? = some '/' <;> simp [hl]

/-- What `send` resolves is a path in normal form that starts with the names
of the root. -/
theorem resolve_form (lib : HttpLib) (root raw full : List Char) (names : List (List Char))
    (hr : AbsNorm root names) (h : resolve lib root raw = some full) :
    ∃ X b, NormForm full (names ++ X) b := by
  have hroot := NormForm.of_absNorm root names hr
  obtain ⟨_, hrne⟩ := head_form root names false hroot
  unfold resolve at h
  cases hd : decodeURIComponent raw with
  | none => rw [hd] at h; simp at h
  | some p =>
    rw [hd] at h
    simp only at h
    split at h
    · simp at h
    · by_cases hp : p = []
      · simp only [hp, if_true] at h
        split at h
        · simp at h
        · split at h
          · simp at h
          · have hj : pathJoin [root, []] = normalize root := by
              simp [pathJoin, List.filter, hrne, joinSegs]
            rw [hj, normalize_form root names false hroot,
              normalize_form root names false hroot] at h
            refine ⟨[], false, ?_⟩
            rw [← Option.some.inj h, List.append_nil]
            exact hroot
      · simp only [hp, if_false] at h
        split at h
        · simp at h
        · rename_i hup
          split at h
          · simp at h
          · have hS : dotdot ∉ (splitSep isSlash p).foldl (normStep true) [] := by
              intro hm
              exact hup (upPath_of_dotdot p hp hm)
            have hkept := foldl_normStep_kept true (splitSep isSlash p) [] (by simp)
            have hSp : ∀ n ∈ ((splitSep isSlash p).foldl (normStep true) []),
                Proper n ∧ ∀ c ∈ n, isSlash c = false := by
              intro n hn
              exact ⟨⟨(hkept n hn).1, (hkept n hn).2, fun e => hS (e ▸ hn)⟩,
                normStack_mem_noSlash true p n hn⟩
            generalize hSdef : (splitSep isSlash p).foldl (normStep true) [] = S at hS hkept hSp
            have hpn := normalize_rel_append p hp
            rw [hSdef] at hpn
            generalize normalize ('.' :: '/' :: p) = pn at h hpn
            have hpnne : pn ≠ [] := by
              rw [hpn]
              split
              · split <;> simp
              · rename_i hJ
                intro e
                exact hJ (List.append_eq_nil.mp e).1
            have hY : (splitSep isSlash pn).foldl (normStep false) names.reverse
                = S ++ names.reverse := by
              by_cases hJ : joinSegs S.reverse = []
              · have hSnil : S = [] := by
                  cases S with
                  | nil => rfl
                  | cons x xs =>
                    have := joinSegs_eq_nil _ hJ x (by simp)
                    exact absurd this (hkept x (List.mem_cons_self _ _)).1
                rw [hpn, if_pos hJ, hSnil]
                split <;> simp [splitSep, isSlash, normStep]
              · have hSne : S.reverse ≠ [] := by
                  intro e; apply hJ; rw [e]; rfl
                have hsplit := splitSep_joinSegs isSlash (by decide) S.reverse hSne
                  (fun n hn => (hSp n (List.mem_reverse.mp hn)).2)
                have hfold := foldl_normStep_proper false S.reverse names.reverse
                  (fun n hn => (hSp n (List.mem_reverse.mp hn)).1)
                rw [List.reverse_reverse] at hfold
                rw [hpn, if_neg hJ]
                split
                · rw [splitSep_append isSlash _ _ '/' (by decide), hsplit, List.foldl_append,
                    hfold]
                  simp [splitSep, normStep]
                · rw [List.append_nil, hsplit, hfold]
            have hform := join_form root pn names S false hroot hpnne hY hSp
            rw [normalize_form _ _ _ hform] at h
            refine ⟨S.reverse, decide (pn.getLast? = some '/'), ?_⟩
            rw [← Option.some.inj h]
            exact hform

/-- Every path that the static responder looks up in the file system lies in
the static root or below. -/
theorem target_inside (lib : HttpLib) (root raw t : List Char) (names : List (List Char))
    (hr : AbsNorm root names) (h : target lib root raw = some t) : inside root t := by
  unfold target at h
  cases hres : resolve lib root raw with
  | none => rw [hres] at h; simp at h
  | some full =>
    rw [hres] at h
    simp only [Option.map_some', Option.some.injEq] at h
    obtain ⟨X, b, hform⟩ := resolve_form lib root raw full names hr hres
    have hsr := segs_of_absNorm root names hr
    unfold inside
    rw [hsr, ← h]
    split
    · have hidx : Proper "index.html".toList := by unfold Proper; decide
      have hsplit : splitSep isSlash "index.html".toList = ["index.html".toList] := by decide
      have hf := join_form full "index.html".toList (names ++ X) ["index.html".toList] b hform
        (by decide)
        (by rw [hsplit, List.foldl_cons, List.foldl_nil, normStep_proper false _ _ hidx]; rfl)
        (by intro n hn; simp at hn; subst hn; exact ⟨hidx, by decide⟩)
      rw [segs_form _ _ _ hf, List.append_assoc]
      exact List.prefix_append _ _
    · rw [segs_form _ _ _ hform]
      exact List.prefix_append _ _

/-! ## Lemmas on responses -/

theorem respond_without (req : Request) (status : Nat) (body : Body) (names : List String)
    (h : ∀ fields, body ≠ .json fields) :
    (respond req status body).without names = respond req status body := by
  unfold respond Response.without
  by_cases hh : req.method = .HEAD
  · rw [if_pos hh]
  · rw [if_neg hh]
    cases body with
    | json fields => exact absurd rfl (h fields)
    | empty => rfl
    | bytes c => rfl
    | page m => rfl

theorem respond_bytes (req : Request) (status : Nat) (body : Body) (b : List UInt8)
    (h : (respond req status body).body = .bytes b) : body = .bytes b := by
  unfold respond at h
  by_cases hh : req.method = .HEAD
  · simp [hh] at h
  · simpa [hh] using h

theorem send_without (w : World) (req : Request) (content : List UInt8) (names : List String) :
    (send w req content).without names = send w req content := by
  unfold send
  split
  · exact respond_without _ _ _ _ (by simp)
  · split
    · rfl
    · split
      · split
        · exact respond_without _ _ _ _ (by simp)
        · exact respond_without _ _ _ _ (by simp)
        · exact respond_without _ _ _ _ (by simp)
      · exact respond_without _ _ _ _ (by simp)

theorem serveStatic_without (w : World) (root : List Char) (req : Request) (r : Response)
    (names : List String) (h : serveStatic w root req = some r) : r.without names = r := by
  unfold serveStatic at h
  split at h
  · simp at h
  · split at h
    · simp at h
    · split at h
      · simp only [Option.some.injEq] at h
        rw [← h]; exact send_without w req _ names
      · split at h
        · simp at h
        · simp only [Option.some.injEq] at h
          rw [← h]; exact respond_without _ _ _ _ (by simp)
      · simp at h

theorem send_bytes (w : World) (req : Request) (content b : List UInt8)
    (h : (send w req content).body = .bytes b) :
    b = content ∨ ∃ first n, b = (content.drop first).take n := by
  unfold send at h
  split at h
  · have := respond_bytes _ _ _ _ h
    simp at this
  · split at h
    · simp at h
    · split at h
      · split at h
        · have := respond_bytes _ _ _ _ h
          simp at this
        · have := respond_bytes _ _ _ _ h
          simp only [Body.bytes.injEq] at this
          exact Or.inr ⟨_, _, this.symm⟩
        · have := respond_bytes _ _ _ _ h
          simp only [Body.bytes.injEq] at this
          exact Or.inl this.symm
      · have := respond_bytes _ _ _ _ h
        simp only [Body.bytes.injEq] at this
        exact Or.inl this.symm

theorem serveStatic_bytes (w : World) (root : List Char) (req : Request) (r : Response)
    (b : List UInt8) (h : serveStatic w root req = some r) (hb : r.body = .bytes b) :
    ∃ t content, target w.lib root req.path = some t ∧ w.fs t = some (.file content) ∧
      (b = content ∨ ∃ first n, b = (content.drop first).take n) := by
  unfold serveStatic at h
  split at h
  · simp at h
  · cases ht : target w.lib root req.path with
    | none => rw [ht] at h; simp at h
    | some t =>
      rw [ht] at h
      simp only at h
      cases hf : w.fs t with
      | none => rw [hf] at h; simp at h
      | some node =>
        rw [hf] at h
        cases node with
        | file content =>
          simp only [Option.some.injEq] at h
          rw [← h] at hb
          exact ⟨t, content, rfl, hf, send_bytes w req content b hb⟩
        | dir =>
          simp only at h
          split at h
          · simp at h
          · simp only [Option.some.injEq] at h
            rw [← h] at hb
            have := respond_bytes _ _ _ _ hb
            simp at this

theorem healthHandler_not_bytes (w : World) (req : Request) (b : List UInt8) :
    (healthHandler w req).body ≠ .bytes b := by
  unfold healthHandler resJson respond
  split
  · simp
  · split <;> simp

/-- File bytes in a response of the application come from the static
responder, out of a regular file at the path that it looked up. -/
theorem app_bytes (dirname : List Char) (w : World) (req : Request) (b : List UInt8)
    (hb : (app dirname w req).body = .bytes b) :
    ∃ t content, target w.lib (staticRoot dirname) req.path = some t ∧
      w.fs t = some (.file content) ∧
      (b = content ∨ ∃ first n, b = (content.drop first).take n) := by
  rw [app_dispatch] at hb
  cases hs : serveStatic w (staticRoot dirname) req with
  | some r =>
    rw [hs] at hb
    exact serveStatic_bytes w _ req r b hs hb
  | none =>
    rw [hs] at hb
    exfalso
    simp only at hb
    split at hb
    · split at hb
      · exact healthHandler_not_bytes w req b hb
      · split at hb
        · simp at hb
        · have := respond_bytes _ _ _ _ hb
          simp at this
    · have := respond_bytes _ _ _ _ hb
      simp at this

/-! ## Lemmas on time -/

theorem digitVal_digitChar (n : Nat) : digitVal (digitChar n) = some (n % 10) := by
  have h : ∀ k, k < 10 → digitVal (Char.ofNat (48 + k)) = some k := by decide
  exact h (n % 10) (Nat.mod_lt _ (by norm_num))

theorem digitChar_not_sign (n : Nat) : ¬ (digitChar n = '+' ∨ digitChar n = '-') := by
  have h : ∀ k, k < 10 → ¬ (Char.ofNat (48 + k) = '+' ∨ Char.ofNat (48 + k) = '-') := by decide
  exact h (n % 10) (Nat.mod_lt _ (by norm_num))

theorem pad_two (n : Nat) : pad 2 n = [digitChar (n / 10), digitChar n] := rfl

theorem pad_three (n : Nat) : pad 3 n = [digitChar (n / 10 / 10), digitChar (n / 10), digitChar n] :=
  rfl

theorem pad_four (n : Nat) :
    pad 4 n = [digitChar (n / 10 / 10 / 10), digitChar (n / 10 / 10), digitChar (n / 10),
      digitChar n] := rfl

theorem pad_six (n : Nat) :
    pad 6 n = [digitChar (n / 10 / 10 / 10 / 10 / 10), digitChar (n / 10 / 10 / 10 / 10),
      digitChar (n / 10 / 10 / 10), digitChar (n / 10 / 10), digitChar (n / 10), digitChar n] := rfl

theorem readDigits_two (n : Nat) (h : n < 100) :
    readDigits 0 [digitChar (n / 10), digitChar n] = some n := by
  simp only [readDigits, digitVal_digitChar]
  congr 1; omega

theorem readDigits_three (n : Nat) (h : n < 1000) :
    readDigits 0 [digitChar (n / 10 / 10), digitChar (n / 10), digitChar n] = some n := by
  simp only [readDigits, digitVal_digitChar]
  congr 1; omega

theorem readDigits_four (n : Nat) (h : n < 10000) :
    readDigits 0 [digitChar (n / 10 / 10 / 10), digitChar (n / 10 / 10), digitChar (n / 10),
      digitChar n] = some n := by
  simp only [readDigits, digitVal_digitChar]
  congr 1; omega

theorem readDigits_six (n : Nat) (h : n < 1000000) :
    readDigits 0 [digitChar (n / 10 / 10 / 10 / 10 / 10), digitChar (n / 10 / 10 / 10 / 10),
      digitChar (n / 10 / 10 / 10), digitChar (n / 10 / 10), digitChar (n / 10), digitChar n]
      = some n := by
  simp only [readDigits, digitVal_digitChar]
  congr 1; omega

/-- Reading back the part after the year. -/
theorem parseAfterYear_fields (y : Int) (M D H Mi S F : Nat)
    (hM : 1 ≤ M ∧ M ≤ 12) (hD : 1 ≤ D ∧ D ≤ 31) (hH : H ≤ 23) (hMi : Mi ≤ 59) (hS : S ≤ 59)
    (hF : F ≤ 999)
    (hr : -maxTime ≤ MakeDate (daysFromCivil y M D) (MakeTime H Mi S F) ∧
      MakeDate (daysFromCivil y M D) (MakeTime H Mi S F) ≤ maxTime) :
    parseAfterYear y (dateTimeTail M D H Mi S F)
      = some (MakeDate (daysFromCivil y M D) (MakeTime H Mi S F)) := by
  simp only [dateTimeTail, pad_two, pad_three, List.cons_append, List.nil_append, parseAfterYear]
  rw [readDigits_two M (by omega), readDigits_two D (by omega), readDigits_two H (by omega),
    readDigits_two Mi (by omega), readDigits_two S (by omega), readDigits_three F (by omega)]
  simp only [and_self, if_true]
  rw [if_pos ⟨hM.1, hM.2, hD.1, hD.2, hMi, hS, Or.inl hH⟩]
  simp only [hr, and_self, if_true]

theorem parseISO_year4 (y : Nat) (hy : y ≤ 9999) (rest : List Char) :
    parseISO (pad 4 y ++ rest) = parseAfterYear y rest := by
  simp only [pad_four, List.cons_append, List.nil_append, parseISO]
  rw [if_neg (digitChar_not_sign _), readDigits_four y (by omega)]

theorem parseISO_plus (y : Nat) (hy : y ≤ 999999) (rest : List Char) :
    parseISO ('+' :: (pad 6 y ++ rest)) = parseAfterYear y rest := by
  simp only [pad_six, List.cons_append, List.nil_append, parseISO]
  rw [if_pos (Or.inl trivial), readDigits_six y (by omega)]
  simp only
  rw [if_neg (by decide)]

theorem parseISO_minus (y : Nat) (hy0 : 0 < y) (hy : y ≤ 999999) (rest : List Char) :
    parseISO ('-' :: (pad 6 y ++ rest)) = parseAfterYear (-(y : Int)) rest := by
  simp only [pad_six, List.cons_append, List.nil_append, parseISO]
  rw [if_pos (Or.inr trivial), readDigits_six y (by omega)]
  simp only
  rw [if_pos trivial, if_neg (by omega)]

theorem civil_month_day (z : Int) :
    1 ≤ (civilFromDays z).month ∧ (civilFromDays z).month ≤ 12 ∧
    1 ≤ (civilFromDays z).day ∧ (civilFromDays z).day ≤ 31 := by
  simp only [civilFromDays]
  omega


theorem era_facts (doe c doc q doq yr doy yoe : Int) (h0 : 0 ≤ doe) (h1 : doe ≤ 146096)
    (hc : c = if doe / 36524 = 4 then 3 else doe / 36524)
    (hdoc : doc = doe - c * 36524) (hq : q = doc / 1461) (hdoq : doq = doc % 1461)
    (hyr : yr = if doq / 365 = 4 then 3 else doq / 365)
    (hdoy : doy = doq - yr * 365) (hyoe : yoe = c * 100 + q * 4 + yr) :
    0 ≤ yoe ∧ yoe ≤ 399 ∧ 0 ≤ doy ∧ doy ≤ 365 ∧
      yoe * 365 + yoe / 4 - yoe / 100 + doy = doe := by
  have c0 : 0 ≤ c ∧ c ≤ 3 := by omega
  have d0 : 0 ≤ doc ∧ doc ≤ 36524 := by omega
  have q0 : 0 ≤ q ∧ q ≤ 24 := by omega
  have dq0 : 0 ≤ doq ∧ doq ≤ 1460 := by omega
  have y0 : 0 ≤ yr ∧ yr ≤ 3 := by omega
  have dy0 : 0 ≤ doy ∧ doy ≤ 365 := by omega
  have e4 : yoe / 4 = 25 * c + q := by omega
  have e100 : yoe / 100 = c := by omega
  have edoc : doc = 1461 * q + doq := by omega
  refine ⟨by omega, by omega, dy0.1, dy0.2, ?_⟩
  rw [e4, e100]
  omega

theorem civil_roundtrip (z : Int) :
    daysFromCivil (civilFromDays z).year (civilFromDays z).month (civilFromDays z).day = z := by
  have hz : (z + 719468) / 146097 * 146097 + (z + 719468) % 146097 = z + 719468 :=
    Int.ediv_add_emod' (z + 719468) 146097
  have hd0 : 0 ≤ (z + 719468) % 146097 := Int.emod_nonneg _ (by norm_num)
  have hd1 : (z + 719468) % 146097 < 146097 := Int.emod_lt_of_pos _ (by norm_num)
  generalize hera : (z + 719468) / 146097 = era at hz
  generalize hdoe : (z + 719468) % 146097 = doe at hz hd0 hd1
  obtain ⟨c, hc⟩ : ∃ c, c = if doe / 36524 = 4 then 3 else doe / 36524 := ⟨_, rfl⟩
  obtain ⟨doc, hdoc⟩ : ∃ doc, doc = doe - c * 36524 := ⟨_, rfl⟩
  obtain ⟨q, hq⟩ : ∃ q, q = doc / 1461 := ⟨_, rfl⟩
  obtain ⟨doq, hdoq⟩ : ∃ doq, doq = doc % 1461 := ⟨_, rfl⟩
  obtain ⟨yr, hyr⟩ : ∃ yr, yr = if doq / 365 = 4 then 3 else doq / 365 := ⟨_, rfl⟩
  obtain ⟨doy, hdoy⟩ : ∃ doy, doy = doq - yr * 365 := ⟨_, rfl⟩
  obtain ⟨yoe, hyoe⟩ : ∃ yoe, yoe = c * 100 + q * 4 + yr := ⟨_, rfl⟩
  obtain ⟨f0, f1, f2, f3, f4⟩ := era_facts doe c doc q doq yr doy yoe hd0 (by omega)
    hc hdoc hq hdoq hyr hdoy hyoe
  simp only [civilFromDays, daysFromCivil, hera, hdoe, ← hc, ← hdoc, ← hq, ← hdoq, ← hyr, ← hdoy,
    ← hyoe]
  obtain ⟨mp, hmp⟩ : ∃ mp, mp = (5 * doy + 2) / 153 := ⟨_, rfl⟩
  simp only [← hmp]
  have m0 : 0 ≤ mp ∧ mp ≤ 11 := by omega
  by_cases hm : mp < 10
  · simp only [hm, if_true]
    have e1 : ¬ (mp + 3 ≤ 2) := by omega
    have e2 : mp + 3 > 2 := by omega
    simp only [e1, e2, if_false, if_true]
    have e3 : (yoe + era * 400) / 400 = era := by omega
    have e4 : (yoe + era * 400) % 400 = yoe := by omega
    rw [e3, e4]
    omega
  · simp only [hm, if_false]
    have e1 : mp - 9 ≤ 2 := by omega
    have e2 : ¬ (mp - 9 > 2) := by omega
    simp only [e1, e2, if_false, if_true]
    have e5 : yoe + era * 400 + 1 - 1 = yoe + era * 400 := by omega
    have e3 : (yoe + era * 400) / 400 = era := by omega
    have e4 : (yoe + era * 400) % 400 = yoe := by omega
    rw [e5, e3, e4]
    omega

theorem civil_year_bound (z : Int) (h : -100000000 ≤ z ∧ z ≤ 100000000) :
    -999999 ≤ (civilFromDays z).year ∧ (civilFromDays z).year ≤ 999999 := by
  have hz : (z + 719468) / 146097 * 146097 + (z + 719468) % 146097 = z + 719468 :=
    Int.ediv_add_emod' (z + 719468) 146097
  have hd0 : 0 ≤ (z + 719468) % 146097 := Int.emod_nonneg _ (by norm_num)
  have hd1 : (z + 719468) % 146097 < 146097 := Int.emod_lt_of_pos _ (by norm_num)
  generalize hera : (z + 719468) / 146097 = era at hz
  generalize hdoe : (z + 719468) % 146097 = doe at hz hd0 hd1
  obtain ⟨c, hc⟩ : ∃ c, c = if doe / 36524 = 4 then 3 else doe / 36524 := ⟨_, rfl⟩
  obtain ⟨doc, hdoc⟩ : ∃ doc, doc = doe - c * 36524 := ⟨_, rfl⟩
  obtain ⟨q, hq⟩ : ∃ q, q = doc / 1461 := ⟨_, rfl⟩
  obtain ⟨doq, hdoq⟩ : ∃ doq, doq = doc % 1461 := ⟨_, rfl⟩
  obtain ⟨yr, hyr⟩ : ∃ yr, yr = if doq / 365 = 4 then 3 else doq / 365 := ⟨_, rfl⟩
  obtain ⟨doy, hdoy⟩ : ∃ doy, doy = doq - yr * 365 := ⟨_, rfl⟩
  obtain ⟨yoe, hyoe⟩ : ∃ yoe, yoe = c * 100 + q * 4 + yr := ⟨_, rfl⟩
  obtain ⟨f0, f1, f2, f3, f4⟩ := era_facts doe c doc q doq yr doy yoe hd0 (by omega)
    hc hdoc hq hdoq hyr hdoy hyoe
  simp only [civilFromDays, hera, hdoe, ← hc, ← hdoc, ← hq, ← hdoq, ← hyr, ← hdoy, ← hyoe]
  split <;> omega

/-- Reading back what `toISOString` writes gives the time value. -/
theorem parseISO_toISOString (t : Int) (h : -maxTime ≤ t ∧ t ≤ maxTime) :
    parseISO (toISOString t) = some t := by
  have hms0 : 0 ≤ TimeWithinDay t := Int.emod_nonneg _ (by decide)
  have hms1 : TimeWithinDay t < 86400000 := Int.emod_lt_of_pos _ (by decide)
  have hsplit : Day t * 86400000 + TimeWithinDay t = t := Int.ediv_add_emod' t 86400000
  have hday : -100000000 ≤ Day t ∧ Day t ≤ 100000000 := by
    unfold maxTime at h; omega
  obtain ⟨hm1, hm2, hd1, hd2⟩ := civil_month_day (Day t)
  obtain ⟨hy1, hy2⟩ := civil_year_bound (Day t) hday
  have hrt := civil_roundtrip (Day t)
  unfold toISOString
  simp only []
  generalize civilFromDays (Day t) = c at hm1 hm2 hd1 hd2 hy1 hy2 hrt
  generalize hms : TimeWithinDay t = ms at hms0 hms1 hsplit
  have eM : ((c.month.toNat : Nat) : Int) = c.month := Int.toNat_of_nonneg (by omega)
  have eD : ((c.day.toNat : Nat) : Int) = c.day := Int.toNat_of_nonneg (by omega)
  have hval : MakeDate (daysFromCivil c.year (c.month.toNat : Nat) (c.day.toNat : Nat))
      (MakeTime ((ms / 3600000).toNat : Nat) ((ms / 60000 % 60).toNat : Nat)
        ((ms / 1000 % 60).toNat : Nat) ((ms % 1000).toNat : Nat)) = t := by
    rw [eM, eD, hrt]
    unfold MakeDate MakeTime msPerDay
    omega
  have hfields : parseAfterYear c.year (dateTimeTail c.month.toNat c.day.toNat
      (ms / 3600000).toNat (ms / 60000 % 60).toNat (ms / 1000 % 60).toNat (ms % 1000).toNat)
      = some t := by
    rw [parseAfterYear_fields c.year _ _ _ _ _ _ (by omega) (by omega) (by omega) (by omega)
      (by omega) (by omega) (by rw [hval]; exact h), hval]
  unfold yearString
  by_cases hy : 0 ≤ c.year ∧ c.year ≤ 9999
  · rw [if_pos hy, parseISO_year4 _ (by omega), Int.toNat_of_nonneg hy.1]
    exact hfields
  · rw [if_neg hy]
    by_cases hneg : c.year < 0
    · rw [if_pos hneg, List.cons_append, parseISO_minus _ (by omega) (by omega)]
      have e : -((c.year.natAbs : Nat) : Int) = c.year := by omega
      rw [e]
      exact hfields
    · rw [if_neg hneg, List.cons_append, parseISO_plus _ (by omega)]
      have e : ((c.year.natAbs : Nat) : Int) = c.year := by omega
      rw [e]
      exact hfields

theorem toISOString_last (t : Int) : (toISOString t).getLast? = some 'Z' := by
  unfold toISOString dateTimeTail
  simp only [← List.append_assoc]
  rw [List.getLast?_append]
  rfl

/-! ## The claims -/

/-- C1 (as stated, refuted): `GET /health` is not answered 200 with status
`"ok"` whatever the files and headers.  With a directory `health` in the static
root the static layer, which comes first, answers 301; and a request carrying
`If-None-Match: *` is answered 304 without body by `res.json`. -/
theorem health_not_always_ok :
    (getRequest "/health").method = .GET ∧ (getRequest "/health").path = "/health".toList ∧
    (app "/srv".toList (worldOf fsHealthDir plainLib) (getRequest "/health")).status = 301 ∧
    (app "/srv".toList (worldOf fsHealthDir plainLib) (getRequest "/health")).field "status" = none ∧
    (getWith "/health" "if-none-match" "*").method = .GET ∧
    (getWith "/health" "if-none-match" "*").path = "/health".toList ∧
    app "/srv".toList (worldOf fsEmpty plainLib) (getWith "/health" "if-none-match" "*")
      = { status := 304, body := .empty } := by
  decide

/-- C1 (amended): for every GET request to `/health` that `res.json` does not
find fresh (no request without `If-None-Match` and `If-Modified-Since` is
fresh), whatever its other headers and its query and whatever the clocks read,
when the static root holds nothing named `health`, the response status is 200
and the `status` field of the JSON body is the string `"ok"`. -/
theorem health_ok (dirname : List Char) (w : World) (req : Request)
    (habs : dirname.head? = some '/')
    (hm : req.method = .GET) (hp : req.path = "/health".toList)
    (hfs : w.fs (staticRoot dirname ++ "/health".toList) = none)
    (hf : fresh w.lib req (.json (healthObject w)) = false) :
    (app dirname w req).status = 200 ∧
      (app dirname w req).field "status" = some (.str "ok") := by
  obtain ⟨names, hr⟩ := staticRoot_absNorm dirname habs
  have hs : serveStatic w (staticRoot dirname) req = none := by
    unfold serveStatic
    rw [hp, target_health _ _ names hr]
    have hm' : ¬ (req.method ≠ .GET ∧ req.method ≠ .HEAD) := by simp [hm]
    rw [if_neg hm']
    simp only [hfs]
  have hmatch : matchRoute "/health".toList req.path = true := by rw [hp]; decide
  rw [app_dispatch, hs]
  simp only [hmatch, if_true, hm, true_or]
  unfold healthHandler
  rw [resJson_stale w req 200 _ hf]
  simp [respond, hm, Response.field, healthObject]

/-- C1 (amended), instance: a plain `GET /health` on an empty file system. -/
theorem health_ok_witness :
    (app "/srv".toList (worldOf fsEmpty plainLib) (getRequest "/health")).status = 200 ∧
      (app "/srv".toList (worldOf fsEmpty plainLib) (getRequest "/health")).field "status"
        = some (.str "ok") :=
  health_ok "/srv".toList (worldOf fsEmpty plainLib) (getRequest "/health")
    (by decide) (by decide) (by decide) (by decide) (fresh_unconditional _ _ _ rfl rfl)

/-- C2 (as stated, refuted): the layers of the application are not
[health route, static responder], and the application does not behave like that
list: with a regular file `health` in the static root, `GET /health` is answered
by the static layer with the file, where the list of the claim would answer
with the health object. -/
theorem health_first_refuted :
    layers "/srv".toList ≠
      [Layer.get "/health".toList .serverHealth, Layer.useStatic (staticRoot "/srv".toList)] ∧
    app "/srv".toList (worldOf fsHealthFile plainLib) (getRequest "/health")
      = { status := 200, body := .bytes [104, 105] } ∧
    app "/srv".toList (worldOf fsHealthFile plainLib) (getRequest "/health") ≠
      dispatch (worldOf fsHealthFile plainLib) (getRequest "/health")
        [Layer.get "/health".toList .serverHealth, Layer.useStatic (staticRoot "/srv".toList)] [] := by
  decide

/-- C2 (amended): the ordered layers of the application are [static file
responder, health route]; for every request the static responder is tried
first, and only when it passes the request on is the `/health` route matched
(answering GET and HEAD, and OPTIONS with the allowed methods); anything else
gets 404. -/
theorem static_first (dirname : List Char) (w : World) (req : Request) :
    layers dirname =
      [Layer.useStatic (staticRoot dirname), Layer.get "/health".toList .serverHealth] ∧
    app dirname w req =
      match serveStatic w (staticRoot dirname) req with
      | some r => r
      | none =>
        if matchRoute "/health".toList req.path then
          if req.method = .GET ∨ req.method = .HEAD then healthHandler w req
          else if req.method = .OPTIONS then { status := 200, body := .page "Allow: GET, HEAD" }
          else notFound req
        else notFound req :=
  ⟨rfl, app_dispatch dirname w req⟩

/-- C3 (as stated, refuted): `abc` is not a valid port, yet with `PORT=abc` the
value handed to `app.listen` is the string `abc`, not 3000. -/
theorem port_invalid_kept :
    isValidPort "abc" = false ∧ listenArg (some "abc") = .str "abc" ∧
      listenArg (some "abc") ≠ .num 3000 ∧
    isValidPort "70000" = false ∧ listenArg (some "70000") = .str "70000" := by
  decide

/-- C3 (amended): the value handed to `app.listen` is 3000 when `PORT` is unset
or the empty string, and for every other value of `PORT`, a valid port number
or not, it is that string unchanged. -/
theorem port_default (env : Option String) :
    listenArg env =
      match env with
      | none => .num 3000
      | some s => if s = "" then .num 3000 else .str s := by
  cases env with
  | none => rfl
  | some s =>
    rcases s with ⟨l⟩
    cases l with
    | nil => rfl
    | cons c cs =>
      have h : (String.mk (c :: cs)) ≠ "" := by
        intro h; exact absurd (congrArg String.data h) (by simp)
      simp [listenArg, PORT, jsOr, envPORT, truthy, h]

/-- C4 (as stated, refuted): a GET request to `/health` whose response body is
not the three-field object.  The request carries `If-None-Match: *`; `res.json`
in the health handler finds it fresh, answers 304 and sends no body, so the
response of the handler, and of the application, has no field at all. -/
theorem health_body_absent_when_fresh :
    (getWith "/health" "if-none-match" "*").method = .GET ∧
    (getWith "/health" "if-none-match" "*").path = "/health".toList ∧
    (healthHandler (worldOf fsEmpty plainLib) (getWith "/health" "if-none-match" "*")).body
      = .empty ∧
    (app "/srv".toList (worldOf fsEmpty plainLib) (getWith "/health" "if-none-match" "*")).body
      = .empty ∧
    (app "/srv".toList (worldOf fsEmpty plainLib) (getWith "/health" "if-none-match" "*")).field
      "status" = none := by
  decide

/-- C4 (amended): for every GET request to `/health` that `res.json` does not
find fresh (no request without `If-None-Match` and `If-Modified-Since` is
fresh), the response body produced by the health handler is an object with
exactly the three fields `status`, `uptime`, `timestamp`, in this order, a
string, a number and a string: the object literal of the handler, sent with
status 200.  When the static root holds nothing named `health`, this is the
response of the application. -/
theorem health_body_three_fields (w : World) (req : Request) (hm : req.method = .GET)
    (hf : fresh w.lib req (.json (healthObject w)) = false) :
    (∃ s u t, (healthHandler w req).body
      = .json [("status", .str s), ("uptime", .num u), ("timestamp", .str t)]) ∧
    healthHandler w req = { status := 200, body := .json (healthObject w) } ∧
    healthObject w = [("status", .str "ok"), ("uptime", .num (uptime w)),
      ("timestamp", .str (String.mk (toISOString w.now)))] ∧
    (∀ dirname : List Char, dirname.head? = some '/' → req.path = "/health".toList →
      w.fs (staticRoot dirname ++ "/health".toList) = none →
      app dirname w req = healthHandler w req) := by
  have hh : healthHandler w req = { status := 200, body := .json (healthObject w) } := by
    unfold healthHandler
    rw [resJson_stale w req 200 _ hf]
    simp [respond, hm]
  refine ⟨⟨"ok", uptime w, String.mk (toISOString w.now), ?_⟩, hh, rfl, ?_⟩
  · rw [hh]; rfl
  · intro dirname habs hp hfs
    exact app_health dirname w req habs (Or.inl hm) hp hfs

/-- C4 (amended), instance: a plain `GET /health`. -/
theorem health_body_three_fields_witness :
    (∃ s u t, (healthHandler (worldOf fsEmpty plainLib) (getRequest "/health")).body
      = .json [("status", .str s), ("uptime", .num u), ("timestamp", .str t)]) ∧
    (app "/srv".toList (worldOf fsEmpty plainLib) (getRequest "/health")).body
      = .json (healthObject (worldOf fsEmpty plainLib)) :=
  have h := health_body_three_fields (worldOf fsEmpty plainLib) (getRequest "/health")
    (by decide) (fresh_unconditional _ _ _ rfl rfl)
  ⟨h.1, by rw [h.2.2.2 "/srv".toList (by decide) (by decide) (by decide), h.2.1]⟩

/-- C5 (as stated, refuted): on an empty file system the path `/health` has no
matching file under the static root, yet `GET /health` is answered 200. -/
theorem no_file_but_200 :
    target plainLib (staticRoot "/srv".toList) (getRequest "/health").path
      = some "/srv/app/health".toList ∧
    (worldOf fsEmpty plainLib).fs "/srv/app/health".toList = none ∧
    (app "/srv".toList (worldOf fsEmpty plainLib) (getRequest "/health")).status = 200 := by
  decide

/-- C5 (amended): for every request for which the static root holds nothing
(no file, no directory) at the path that the static responder looks up, and
which the `/health` route does not answer (its path is not `/health`, or its
method is none of GET, HEAD, OPTIONS), the response status is 404. -/
theorem no_file_404 (dirname : List Char) (w : World) (req : Request)
    (hfs : ∀ t, target w.lib (staticRoot dirname) req.path = some t → w.fs t = none)
    (hh : matchRoute "/health".toList req.path = true →
      req.method ≠ .GET ∧ req.method ≠ .HEAD ∧ req.method ≠ .OPTIONS) :
    (app dirname w req).status = 404 := by
  have hs : serveStatic w (staticRoot dirname) req = none := by
    unfold serveStatic
    split
    · rfl
    · cases ht : target w.lib (staticRoot dirname) req.path with
      | none => rfl
      | some t => simp only [hfs t ht]
  rw [app_dispatch, hs]
  by_cases hmatch : matchRoute "/health".toList req.path = true
  · obtain ⟨hg, hhd, ho⟩ := hh hmatch
    simp only [hmatch, if_true, hg, hhd, ho, or_self, if_false, notFound, respond]
  · simp only [hmatch, Bool.false_eq_true, if_false, notFound, respond]

/-- C5 (amended), instance: `GET /nothing` on an empty file system. -/
theorem no_file_404_witness :
    (app "/srv".toList (worldOf fsEmpty plainLib) (getRequest "/nothing")).status = 404 :=
  no_file_404 "/srv".toList (worldOf fsEmpty plainLib) (getRequest "/nothing")
    (fun _ _ => rfl) (by decide)

/-- C6 (as stated, refuted): three GET requests whose path matches an existing
regular file under the static root and whose response is not 200 with the
bytes of the file: the dotfile `/.env` is ignored (404, under either dotfile
rule); `/index.html` requested with `If-None-Match: *` is answered 304 without
body; and `/index.html` requested with `Range: bytes=0-0`, under a library that
reads this range, is answered 206 with the first byte only. -/
theorem file_not_always_served :
    pathJoin [staticRoot "/srv".toList, "/.env".toList] = "/srv/app/.env".toList ∧
    fsSite "/srv/app/.env".toList = some (.file [75, 61, 49]) ∧
    (app "/srv".toList (worldOf fsSite plainLib) (getRequest "/.env")).status = 404 ∧
    (app "/srv".toList (worldOf fsSite legacyLib) (getRequest "/.env")).status = 404 ∧
    pathJoin [staticRoot "/srv".toList, "/index.html".toList] = "/srv/app/index.html".toList ∧
    fsSite "/srv/app/index.html".toList = some (.file [60, 104, 49, 62]) ∧
    app "/srv".toList (worldOf fsSite plainLib) (getWith "/index.html" "if-none-match" "*")
      = { status := 304, body := .empty } ∧
    app "/srv".toList (worldOf fsSite rangeLib) (getWith "/index.html" "range" "bytes=0-0")
      = { status := 206, body := .bytes [60] } := by
  decide

/-- C6 (amended): for every GET request whose path the static responder
resolves (it decodes, has no NUL, does not climb out of the root, names no
dotfile) to an existing regular file under the static root (for a path ending
in a slash, the `index.html` below it), and which is answered neither as a
conditional request (no failed precondition, not fresh) nor as a range request
(a bytes `Range` header, if any, selects the whole file), the response status is
200 and the body is exactly the content of that file.  Every request without
the four conditional header fields and without a `Range` header is of this
kind. -/
theorem file_served (dirname : List Char) (w : World) (req : Request) (t : List Char)
    (content : List UInt8) (hm : req.method = .GET)
    (ht : target w.lib (staticRoot dirname) req.path = some t)
    (hf : w.fs t = some (.file content))
    (hpre : isConditionalGET req = true → w.lib.preconditionFailure req content = false)
    (hfr : isConditionalGET req = true → fresh w.lib req (.bytes content) = false)
    (hrg : isBytesRange req = true → w.lib.range req content.length = .whole) :
    app dirname w req = { status := 200, body := .bytes content } := by
  have hs : serveStatic w (staticRoot dirname) req
      = some { status := 200, body := .bytes content } := by
    unfold serveStatic
    have hm' : ¬ (req.method ≠ .GET ∧ req.method ≠ .HEAD) := by simp [hm]
    rw [if_neg hm', ht]
    simp only [hf]
    have e1 : ¬ (isConditionalGET req = true ∧ w.lib.preconditionFailure req content = true) :=
      fun h => by rw [hpre h.1] at h; exact absurd h.2 (by simp)
    have e2 : ¬ (isConditionalGET req = true ∧ fresh w.lib req (.bytes content) = true) :=
      fun h => by rw [hfr h.1] at h; exact absurd h.2 (by simp)
    unfold send
    rw [if_neg e1, if_neg e2]
    by_cases hb : isBytesRange req = true
    · rw [if_pos hb, hrg hb]
      simp [respond, hm]
    · rw [if_neg hb]
      simp [respond, hm]
  rw [app_dispatch, hs]

/-- C6 (amended), instance: a plain `GET /index.html`. -/
theorem file_served_witness :
    app "/srv".toList (worldOf fsSite plainLib) (getRequest "/index.html")
      = { status := 200, body := .bytes [60, 104, 49, 62] } :=
  file_served "/srv".toList (worldOf fsSite plainLib) (getRequest "/index.html")
    "/srv/app/index.html".toList [60, 104, 49, 62] (by decide) (by decide) (by decide)
    (by decide) (by decide) (by decide)

/-- C7: the static responder cannot be led out of its root.  For every
request, file bytes in the response are (all or a byte range of) the content
of a regular file at a location inside the static root, and every path that
the responder looks up lies inside the root.  For every request whose decoded
path, joined to the root, leads to a location outside the root (such a path
contains a `..` segment), the responder passes the request on and the response
is the 404 of the final handler. -/
theorem traversal_not_served (dirname : List Char) (w : World) (req : Request)
    (habs : dirname.head? = some '/') :
    (∀ b, (app dirname w req).body = .bytes b →
      ∃ t content, inside (staticRoot dirname) t ∧ w.fs t = some (.file content) ∧
        (b = content ∨ ∃ first n, b = (content.drop first).take n)) ∧
    (∀ t, target w.lib (staticRoot dirname) req.path = some t → inside (staticRoot dirname) t) ∧
    (∀ p, decodeURIComponent req.path = some p →
      ¬ inside (staticRoot dirname) (pathJoin [staticRoot dirname, p]) →
      dotdot ∈ splitSep isSlash p ∧ serveStatic w (staticRoot dirname) req = none ∧
        app dirname w req = notFound req) := by
  obtain ⟨names, hr⟩ := staticRoot_absNorm dirname habs
  refine ⟨?_, ?_, ?_⟩
  · intro b hb
    obtain ⟨t, content, ht, hf, hc⟩ := app_bytes dirname w req b hb
    exact ⟨t, content, target_inside _ _ _ t names hr ht, hf, hc⟩
  · intro t ht
    exact target_inside _ _ _ t names hr ht
  · intro p hd hesc
    obtain ⟨hres, hdd⟩ := resolve_escape w.lib (staticRoot dirname) req.path p names hr hd hesc
    have ht : target w.lib (staticRoot dirname) req.path = none := by
      unfold target; rw [hres]; rfl
    have hs : serveStatic w (staticRoot dirname) req = none := by
      unfold serveStatic
      rw [ht]
      split <;> rfl
    have hmatch : ¬ matchRoute "/health".toList req.path = true := by
      intro hmr
      obtain ⟨hpc, hdot⟩ := matchRoute_health_chars req.path hmr
      have hself := decodeURIComponent_plain req.path hpc
      rw [hd] at hself
      have hpe : p = req.path := Option.some.inj hself
      have : '.' ∈ p := mem_splitSep_sub isSlash p dotdot hdd '.' (by decide)
      exact hdot (hpe ▸ this)
    refine ⟨hdd, hs, ?_⟩
    rw [app_dispatch, hs]
    simp only [hmatch, Bool.false_eq_true, if_false]

/-- C7, instance: `GET /%2e%2e/secret.txt`, where `/srv/secret.txt` exists
next to the static root `/srv/app`: the decoded path `/../secret.txt` joined
to the root is `/srv/secret.txt`, outside the root, and the response is 404. -/
theorem traversal_not_served_witness :
    fsSite "/srv/secret.txt".toList = some (.file [115]) ∧
    decodeURIComponent (getRequest "/%2e%2e/secret.txt").path = some "/../secret.txt".toList ∧
    pathJoin [staticRoot "/srv".toList, "/../secret.txt".toList] = "/srv/secret.txt".toList ∧
    (dotdot ∈ splitSep isSlash "/../secret.txt".toList ∧
      serveStatic (worldOf fsSite plainLib) (staticRoot "/srv".toList)
        (getRequest "/%2e%2e/secret.txt") = none ∧
      app "/srv".toList (worldOf fsSite plainLib) (getRequest "/%2e%2e/secret.txt")
        = notFound (getRequest "/%2e%2e/secret.txt")) :=
  ⟨by decide, by decide, by decide,
    (traversal_not_served "/srv".toList (worldOf fsSite plainLib)
      (getRequest "/%2e%2e/secret.txt") (by decide)).2.2 "/../secret.txt".toList
      (by decide) (by decide)⟩

/-- C8: the `uptime` field of a health response is the reading of the
monotonic clock at handling minus the reading at process start, in seconds; it
is non-negative, and of two health responses of the same process (same start),
the one handled at a reading no earlier than the other carries an `uptime` no
smaller. -/
theorem uptime_monotone (w1 w2 : World) (req1 req2 : Request) (u1 u2 : ℚ)
    (hsame : w2.start = w1.start) (h0 : w1.start ≤ w1.hrtime) (h12 : w1.hrtime ≤ w2.hrtime)
    (hu1 : (healthHandler w1 req1).uptime = some u1)
    (hu2 : (healthHandler w2 req2).uptime = some u2) :
    u1 = ((w1.hrtime : ℚ) - w1.start) / 1000000000 ∧ 0 ≤ u1 ∧ u1 ≤ u2 := by
  have key : ∀ (w : World) (req : Request) (u : ℚ), (healthHandler w req).uptime = some u →
      u = ((w.hrtime : ℚ) - w.start) / 1000000000 := by
    intro w req u hu
    unfold healthHandler resJson at hu
    split at hu
    · simp [Response.uptime, Response.field] at hu
    · unfold respond at hu
      split at hu
      · simp [Response.uptime, Response.field] at hu
      · simp [Response.uptime, Response.field, healthObject, uptime] at hu
        rw [← hu]
  have e1 := key w1 req1 u1 hu1
  have e2 := key w2 req2 u2 hu2
  have c0 : (w1.start : ℚ) ≤ w1.hrtime := by exact_mod_cast h0
  have c12 : (w1.hrtime : ℚ) ≤ w2.hrtime := by exact_mod_cast h12
  refine ⟨e1, ?_, ?_⟩
  · rw [e1]
    apply div_nonneg
    · linarith
    · norm_num
  · rw [e1, e2, hsame]
    apply div_le_div_of_nonneg_right
    · linarith
    · norm_num

/-- C8, instance: the process started at 5 s, requests handled at 7.5 s and
at 9 s. -/
theorem uptime_monotone_witness :
    uptime (worldOf fsEmpty plainLib)
      = (((worldOf fsEmpty plainLib).hrtime : ℚ) - (worldOf fsEmpty plainLib).start) / 1000000000 ∧
    0 ≤ uptime (worldOf fsEmpty plainLib) ∧
    uptime (worldOf fsEmpty plainLib)
      ≤ uptime { worldOf fsEmpty plainLib with hrtime := 9000000000 } :=
  uptime_monotone (worldOf fsEmpty plainLib) { worldOf fsEmpty plainLib with hrtime := 9000000000 }
    (getRequest "/health") (getRequest "/health") _ _ rfl (by decide) (by decide) rfl rfl

/-- C9: for every clock reading (a time value within the range of `Date`),
the `timestamp` field of a health response is the text that `toISOString`
writes for that instant, a date-time that ends with the UTC designator `Z`,
and parsing this text as an ISO date-time gives back the same instant, to the
millisecond. -/
theorem timestamp_roundtrip (w : World) (req : Request) (s : String)
    (hrange : -maxTime ≤ w.now ∧ w.now ≤ maxTime)
    (hs : (healthHandler w req).field "timestamp" = some (.str s)) :
    s.data = toISOString w.now ∧ s.data.getLast? = some 'Z' ∧ parseISO s.data = some w.now := by
  have hdata : s.data = toISOString w.now := by
    unfold healthHandler resJson at hs
    split at hs
    · simp [Response.field] at hs
    · unfold respond at hs
      split at hs
      · simp [Response.field] at hs
      · simp [Response.field, healthObject] at hs
        rw [← hs]
  rw [hdata]
  exact ⟨rfl, toISOString_last w.now, parseISO_toISOString w.now hrange⟩

/-- C9, instance: the wall clock reads 1700000000000 ms. -/
theorem timestamp_roundtrip_witness :
    "2023-11-14T22:13:20.000Z".data = toISOString (worldOf fsEmpty plainLib).now ∧
    "2023-11-14T22:13:20.000Z".data.getLast? = some 'Z' ∧
    parseISO "2023-11-14T22:13:20.000Z".data = some (worldOf fsEmpty plainLib).now :=
  timestamp_roundtrip (worldOf fsEmpty plainLib) (getRequest "/health")
    "2023-11-14T22:13:20.000Z" (by decide) (by decide)

/-- C10 (as stated, refuted): a `GET /health` request on which the two
applications return different status codes.  The request carries in
`If-None-Match` the entity tag of the body `{"status":"ok"}`; the test
application finds it fresh and answers 304, the server, whose body is another
one, answers 200. -/
theorem test_app_status_differs :
    (getWith "/health" "if-none-match" "W/\"f-VaSQ4oDUiZblZNAEkkN+sX+q3Sg\"").method = .GET ∧
    (getWith "/health" "if-none-match" "W/\"f-VaSQ4oDUiZblZNAEkkN+sX+q3Sg\"").path
      = "/health".toList ∧
    (app "/srv".toList (worldOf fsEmpty etagLib)
      (getWith "/health" "if-none-match" "W/\"f-VaSQ4oDUiZblZNAEkkN+sX+q3Sg\"")).status = 200 ∧
    (HealthTest.app "/srv/tests".toList (worldOf fsEmpty etagLib)
      (getWith "/health" "if-none-match" "W/\"f-VaSQ4oDUiZblZNAEkkN+sX+q3Sg\"")).status
        = 304 := by
  decide

/-- C10 (amended): the test application, built in the directory `tests` below
the directory of server.js, has the same static root as the server, and both
register the static middleware before the `/health` route.  For every request
on which the freshness check of `res.json` gives the same verdict for the two
health bodies (every request without `If-None-Match` and `If-Modified-Since`
is of this kind, the plain `GET /health` of the test among them) the two
applications return the same status code and the same `status` field, and the
response of the test application is the response of the server with the fields
`uptime` and `timestamp` removed. -/
theorem test_app_agrees (dirname : List Char) (w : World) (req : Request)
    (hd : dirname ≠ [])
    (hf : fresh w.lib req (.json (healthObject w))
      = fresh w.lib req (.json [("status", .str "ok")])) :
    pathJoin [dirname ++ "/tests".toList, "../app".toList] = pathJoin [dirname, "app".toList] ∧
    HealthTest.layers (dirname ++ "/tests".toList)
      = [Layer.useStatic (staticRoot dirname), Layer.get "/health".toList .testHealth] ∧
    layers dirname
      = [Layer.useStatic (staticRoot dirname), Layer.get "/health".toList .serverHealth] ∧
    (HealthTest.app (dirname ++ "/tests".toList) w req).status = (app dirname w req).status ∧
    (HealthTest.app (dirname ++ "/tests".toList) w req).field "status"
      = (app dirname w req).field "status" ∧
    HealthTest.app (dirname ++ "/tests".toList) w req
      = (app dirname w req).without ["uptime", "timestamp"] := by
  have hroot := testRoot_eq dirname hd
  have hl : HealthTest.layers (dirname ++ "/tests".toList)
      = [Layer.useStatic (staticRoot dirname), Layer.get "/health".toList .testHealth] := by
    unfold HealthTest.layers staticRoot; rw [hroot]
  refine ⟨hroot, hl, rfl, ?_⟩
  rw [testApp_dispatch, app_dispatch, hroot]
  unfold staticRoot
  cases hs : serveStatic w (pathJoin [dirname, "app".toList]) req with
  | some r =>
    exact ⟨rfl, rfl, (serveStatic_without w _ req r _ hs).symm⟩
  | none =>
    dsimp only
    by_cases hmr : matchRoute "/health".toList req.path = true
    · by_cases hmeth : req.method = .GET ∨ req.method = .HEAD
      · rw [if_pos hmr, if_pos hmr, if_pos hmeth, if_pos hmeth]
        unfold healthHandler HealthTest.healthHandler
        cases hv : fresh w.lib req (.json [("status", .str "ok")]) with
        | true =>
          rw [resJson_fresh w req _ hmeth (hf.trans hv), resJson_fresh w req _ hmeth hv]
          exact ⟨rfl, rfl, rfl⟩
        | false =>
          rw [resJson_stale w req 200 _ (hf.trans hv), resJson_stale w req 200 _ hv]
          unfold respond
          by_cases hh : req.method = .HEAD
          · rw [if_pos hh, if_pos hh]
            exact ⟨rfl, rfl, rfl⟩
          · rw [if_neg hh, if_neg hh]
            refine ⟨rfl, rfl, ?_⟩
            simp [Response.without, healthObject]
      · rw [if_pos hmr, if_pos hmr, if_neg hmeth, if_neg hmeth]
        by_cases ho : req.method = .OPTIONS
        · rw [if_pos ho]
          exact ⟨rfl, rfl, rfl⟩
        · rw [if_neg ho]
          exact ⟨rfl, rfl, (respond_without _ _ _ _ (by simp)).symm⟩
    · rw [if_neg hmr, if_neg hmr]
      exact ⟨rfl, rfl, (respond_without _ _ _ _ (by simp)).symm⟩

/-- C10 (amended), instance: the plain `GET /health` that the test sends. -/
theorem test_app_agrees_witness :
    pathJoin ["/srv".toList ++ "/tests".toList, "../app".toList]
      = pathJoin ["/srv".toList, "app".toList] ∧
    HealthTest.layers ("/srv".toList ++ "/tests".toList)
      = [Layer.useStatic (staticRoot "/srv".toList), Layer.get "/health".toList .testHealth] ∧
    layers "/srv".toList
      = [Layer.useStatic (staticRoot "/srv".toList), Layer.get "/health".toList .serverHealth] ∧
    (HealthTest.app ("/srv".toList ++ "/tests".toList) (worldOf fsEmpty plainLib)
      (getRequest "/health")).status
      = (app "/srv".toList (worldOf fsEmpty plainLib) (getRequest "/health")).status ∧
    (HealthTest.app ("/srv".toList ++ "/tests".toList) (worldOf fsEmpty plainLib)
      (getRequest "/health")).field "status"
      = (app "/srv".toList (worldOf fsEmpty plainLib) (getRequest "/health")).field "status" ∧
    HealthTest.app ("/srv".toList ++ "/tests".toList) (worldOf fsEmpty plainLib)
        (getRequest "/health")
      = (app "/srv".toList (worldOf fsEmpty plainLib) (getRequest "/health")).without
          ["uptime", "timestamp"] :=
  test_app_agrees "/srv".toList (worldOf fsEmpty plainLib) (getRequest "/health")
    (by decide) rfl

end Srv
